import Mathlib

/-!
Verification development for the ThumbHash codec (`src/js/thumbhash.js`,
configurable variant with `config.LUMINANCE_TERMS` / `config.CHROMINANCE_TERMS`).

The JavaScript is embedded shallowly:
* JS numbers are modelled by exact rationals `ℚ`; the runtime cosine is
  abstracted by a parameter `cosPi : ℚ → ℚ` standing for `t ↦ cos (π * t)`
  (every cosine call in the source has the form `cos (PI / d * a * b)`,
  i.e. `cos (π * (a * b / d))`).  Theorems that need analytic facts about
  the cosine assume `∀ t, |cosPi t| ≤ 1`.
* `Math.round` is `jsRound` (round half toward +∞).
* JS bitwise operations on integer-valued numbers are modelled with the
  two's-complement bitwise operations `Int.lor`, `Int.land`, `<<<`, `>>>`
  on `ℤ` (exact for every execution reachable from `Uint8Array` input),
  and with the corresponding `ℕ` operations where the operands are
  naturals (decode input bytes).
* a `Uint8Array` is a `List ℕ` of byte values; reading out of range
  (`undefined`) is `List.getD _ _ 0`, matching the `undefined | x = x`,
  `undefined & x = 0` coercions actually exercised by the source.
* the `throw` on oversized input makes the encoder an `Option`.
-/

namespace ThumbHash

/-- JS `Math.round`: round half toward positive infinity. -/
def jsRound (x : ℚ) : ℤ := ⌊x + 1/2⌋

/-- Pixel sample read, `rgba[j]` as a JS number. -/
def rgbaAt (rgba : List ℕ) (j : ℕ) : ℚ := (rgba.getD j 0 : ℚ)

/-- `alpha = rgba[j + 3] / 255` for pixel `i` (`j = 4 * i`). -/
def alphaAt (rgba : List ℕ) (i : ℕ) : ℚ := rgbaAt rgba (4 * i + 3) / 255

/-- Average red: accumulate `alpha / 255 * rgba[j]`, divide by `w * h`. -/
def avg_r (w h : ℕ) (rgba : List ℕ) : ℚ :=
  (∑ i ∈ Finset.range (w * h), alphaAt rgba i / 255 * rgbaAt rgba (4 * i)) / (w * h)

/-- Average green. -/
def avg_g (w h : ℕ) (rgba : List ℕ) : ℚ :=
  (∑ i ∈ Finset.range (w * h), alphaAt rgba i / 255 * rgbaAt rgba (4 * i + 1)) / (w * h)

/-- Average blue. -/
def avg_b (w h : ℕ) (rgba : List ℕ) : ℚ :=
  (∑ i ∈ Finset.range (w * h), alphaAt rgba i / 255 * rgbaAt rgba (4 * i + 2)) / (w * h)

/-- `r = avg_r * (1 - alpha) + alpha / 255 * rgba[j]` for pixel `i`. -/
def pixR (w h : ℕ) (rgba : List ℕ) (i : ℕ) : ℚ :=
  avg_r w h rgba * (1 - alphaAt rgba i) + alphaAt rgba i / 255 * rgbaAt rgba (4 * i)

/-- `g = avg_g * (1 - alpha) + alpha / 255 * rgba[j + 1]`. -/
def pixG (w h : ℕ) (rgba : List ℕ) (i : ℕ) : ℚ :=
  avg_g w h rgba * (1 - alphaAt rgba i) + alphaAt rgba i / 255 * rgbaAt rgba (4 * i + 1)

/-- `b = avg_b * (1 - alpha) + alpha / 255 * rgba[j + 2]`. -/
def pixB (w h : ℕ) (rgba : List ℕ) (i : ℕ) : ℚ :=
  avg_b w h rgba * (1 - alphaAt rgba i) + alphaAt rgba i / 255 * rgbaAt rgba (4 * i + 2)

/-- Luminance channel `l[i] = (r + g + b) / 3`. -/
def lList (w h : ℕ) (rgba : List ℕ) : List ℚ :=
  (List.range (w * h)).map fun i =>
    (pixR w h rgba i + pixG w h rgba i + pixB w h rgba i) / 3

/-- Yellow-blue channel `p[i] = (r + g) / 2 - b`. -/
def pList (w h : ℕ) (rgba : List ℕ) : List ℚ :=
  (List.range (w * h)).map fun i =>
    (pixR w h rgba i + pixG w h rgba i) / 2 - pixB w h rgba i

/-- Red-green channel `q[i] = r - g`. -/
def qList (w h : ℕ) (rgba : List ℕ) : List ℚ :=
  (List.range (w * h)).map fun i => pixR w h rgba i - pixG w h rgba i

/-- The `(cx, cy)` pairs visited by `for (cy = 0; cy < n; cy++)
    for (cx = 0; cx * n < n * (n - cy); cx++)`; the loop guard is monotone
    in `cx` and false at `cx = n`, so the while-loop equals this filter. -/
def coeffIndices (n : ℕ) : List (ℕ × ℕ) :=
  (List.range n).flatMap fun cy =>
    ((List.range n).filter fun cx => cx * n < n * (n - cy)).map fun cx => (cx, cy)

/-- One DCT coefficient:
    `f = (Σ_y Σ_x channel[x + y*w] * cos(π/w*cx*(x+0.5)) * cos(π/h*cy*(y+0.5))) / (w*h)`. -/
def dctF (cosPi : ℚ → ℚ) (channel : List ℚ) (w h : ℕ) (cx cy : ℕ) : ℚ :=
  (∑ y ∈ Finset.range h, ∑ x ∈ Finset.range w,
      channel.getD (x + y * w) 0 * cosPi ((cx : ℚ) * ((x : ℚ) + 0.5) / w)
        * cosPi ((cy : ℚ) * ((y : ℚ) + 0.5) / h)) / ((w : ℚ) * h)

/-- Loop body of `encodeChannel`: `if (cx || cy) { ac.push(f); scale = max(scale, abs(f)) }
    else dc = f`, acting on the state `(dc, ac, scale)`. -/
def encStep (cosPi : ℚ → ℚ) (channel : List ℚ) (w h : ℕ)
    (s : ℚ × List ℚ × ℚ) (p : ℕ × ℕ) : ℚ × List ℚ × ℚ :=
  let f := dctF cosPi channel w h p.1 p.2
  if p.1 ≠ 0 ∨ p.2 ≠ 0 then (s.1, s.2.1 ++ [f], max s.2.2 |f|)
  else (f, s.2.1, s.2.2)

/-- `encodeChannel(channel, n)`: run the coefficient loop from `(0, [], 0)`,
    then `if (scale) ac[i] = 0.5 + 0.5 / scale * ac[i]`. -/
def encodeChannel (cosPi : ℚ → ℚ) (channel : List ℚ) (w h n : ℕ) : ℚ × List ℚ × ℚ :=
  let r := (coeffIndices n).foldl (encStep cosPi channel w h) (0, [], 0)
  (r.1, if r.2.2 ≠ 0 then r.2.1.map fun v => 0.5 + 0.5 / r.2.2 * v else r.2.1, r.2.2)

/-- `header24 = round(63*l_dc) | round(31.5+31.5*p_dc)<<6 | round(31.5+31.5*q_dc)<<12
    | round(31*l_scale)<<18`. -/
def header24 (l_dc p_dc q_dc l_scale : ℚ) : ℤ :=
  Int.lor (Int.lor (Int.lor (jsRound (63 * l_dc))
    (jsRound (31.5 + 31.5 * p_dc) <<< (6 : ℤ)))
    (jsRound (31.5 + 31.5 * q_dc) <<< (12 : ℤ)))
    (jsRound (31 * l_scale) <<< (18 : ℤ))

/-- `header16 = round(63*p_scale)<<3 | round(63*q_scale)<<9`. -/
def header16 (p_scale q_scale : ℚ) : ℤ :=
  Int.lor (jsRound (63 * p_scale) <<< (3 : ℤ)) (jsRound (63 * q_scale) <<< (9 : ℤ))

/-- The five header elements
    `[header24 & 0xff, (header24 >> 8) & 0xff, header24 >> 16, header16 & 0xff, header16 >> 8]`. -/
def headerHash (h24 h16 : ℤ) : List ℤ :=
  [Int.land h24 255, Int.land (h24 >>> (8 : ℤ)) 255, h24 >>> (16 : ℤ),
   Int.land h16 255, h16 >>> (8 : ℤ)]

/-- `hash[i] |= v`: array element OR-update; writing at the current length
    appends (`undefined | v = v`), as the AC loop does on a fresh byte. -/
def orAt (l : List ℤ) (i : ℕ) (v : ℤ) : List ℤ :=
  if i < l.length then l.set i (Int.lor (l.getD i 0) v)
  else l ++ List.replicate (i - l.length) 0 ++ [v]

/-- The AC serialization loop
    `hash[5 + (ac_index >> 1)] |= round(15 * f) << ((ac_index++ & 1) << 2)`,
    threading `ac_index` through the concatenated AC lists. -/
def writeACLoop (hash : List ℤ) (acIndex : ℕ) : List ℚ → List ℤ
  | [] => hash
  | f :: rest =>
      writeACLoop (orAt hash (5 + acIndex / 2) (jsRound (15 * f) <<< (4 * (acIndex % 2) : ℤ)))
        (acIndex + 1) rest

/-- `new Uint8Array(hash)`: every element is converted by ToUint8
    (integer value modulo 256, nonnegative). -/
def toUint8 (z : ℤ) : ℕ := (z % 256).toNat

/-- The hash bytes produced on the non-throwing path of `rgbaToThumbHash`. -/
def encOut (cosPi : ℚ → ℚ) (termsL termsC : ℕ) (w h : ℕ) (rgba : List ℕ) : List ℕ :=
  let l := encodeChannel cosPi (lList w h rgba) w h termsL
  let p := encodeChannel cosPi (pList w h rgba) w h termsC
  let q := encodeChannel cosPi (qList w h rgba) w h termsC
  let h24 := header24 l.1 p.1 q.1 l.2.2
  let h16 := header16 p.2.2 q.2.2
  (writeACLoop (headerHash h24 h16) 0 (l.2.1 ++ p.2.1 ++ q.2.1)).map toUint8

/-- `rgbaToThumbHash(w, h, rgba)`; `none` models the thrown dimension error. -/
def rgbaToThumbHash (cosPi : ℚ → ℚ) (termsL termsC : ℕ) (w h : ℕ) (rgba : List ℕ) :
    Option (List ℕ) :=
  if 100 < w ∨ 100 < h then none
  else some (encOut cosPi termsL termsC w h rgba)

/-- The `(cx, cy)` pairs visited by the decode loops
    `for (cy = 0; cy < n; cy++) for (cx = cy ? 0 : 1; cx * n < n * (n - cy); cx++)`:
    the same triangle as `coeffIndices`, with `cx` starting at 1 on the row `cy = 0`. -/
def decIndices (n : ℕ) : List (ℕ × ℕ) :=
  (List.range n).flatMap fun cy =>
    (((List.range n).filter fun cx => cx * n < n * (n - cy)).drop
      (if cy = 0 then 1 else 0)).map fun cx => (cx, cy)

/-- The `k`-th AC nibble: `(hash[5 + (k >> 1)] >> ((k & 1) << 2)) & 15`. -/
def nibbleAt (hash : List ℕ) (k : ℕ) : ℕ :=
  (hash.getD (5 + k / 2) 0 >>> (4 * (k % 2))) &&& 15

/-- `decodeChannel`'s `ac.push(((nibble / 7.5) - 1) * scale)` loop, threading the
    running `ac_index` (`k`); one push per visited index pair. -/
def decodeChannelAux (hash : List ℕ) (scale : ℚ) : List (ℕ × ℕ) → ℕ → List ℚ
  | [], _ => []
  | _ :: rest, k =>
      ((nibbleAt hash k : ℚ) / 7.5 - 1) * scale :: decodeChannelAux hash scale rest (k + 1)

/-- `header24 = hash[0] | (hash[1] << 8) | (hash[2] << 16)`. -/
def dHeader24 (hash : List ℕ) : ℕ :=
  hash.getD 0 0 ||| hash.getD 1 0 <<< 8 ||| hash.getD 2 0 <<< 16

/-- `header16 = hash[3] | (hash[4] << 8)`. -/
def dHeader16 (hash : List ℕ) : ℕ :=
  hash.getD 3 0 ||| hash.getD 4 0 <<< 8

/-- `l_dc = (header24 & 63) / 63`. -/
def d_l_dc (hash : List ℕ) : ℚ := ((dHeader24 hash &&& 63 : ℕ) : ℚ) / 63

/-- `p_dc = ((header24 >> 6) & 63) / 31.5 - 1`. -/
def d_p_dc (hash : List ℕ) : ℚ := ((dHeader24 hash >>> 6 &&& 63 : ℕ) : ℚ) / 31.5 - 1

/-- `q_dc = ((header24 >> 12) & 63) / 31.5 - 1`. -/
def d_q_dc (hash : List ℕ) : ℚ := ((dHeader24 hash >>> 12 &&& 63 : ℕ) : ℚ) / 31.5 - 1

/-- `l_scale = ((header24 >> 18) & 31) / 31`. -/
def d_l_scale (hash : List ℕ) : ℚ := ((dHeader24 hash >>> 18 &&& 31 : ℕ) : ℚ) / 31

/-- `p_scale = ((header16 >> 3) & 63) / 63`. -/
def d_p_scale (hash : List ℕ) : ℚ := ((dHeader16 hash >>> 3 &&& 63 : ℕ) : ℚ) / 63

/-- `q_scale = ((header16 >> 9) & 63) / 63`. -/
def d_q_scale (hash : List ℕ) : ℚ := ((dHeader16 hash >>> 9 &&& 63 : ℕ) : ℚ) / 63

/-- `l_ac = decodeChannel(termsL, l_scale)`, starting at `ac_index = 0`. -/
def d_l_ac (termsL : ℕ) (hash : List ℕ) : List ℚ :=
  decodeChannelAux hash (d_l_scale hash) (decIndices termsL) 0

/-- `p_ac = decodeChannel(termsC, p_scale * 1.25)`; `ac_index` has advanced past
    the luminance nibbles. -/
def d_p_ac (termsL termsC : ℕ) (hash : List ℕ) : List ℚ :=
  decodeChannelAux hash (d_p_scale hash * 1.25) (decIndices termsC) (decIndices termsL).length

/-- `q_ac = decodeChannel(termsC, q_scale * 1.25)`; `ac_index` has advanced past
    the luminance and the `p` nibbles. -/
def d_q_ac (termsL termsC : ℕ) (hash : List ℕ) : List ℚ :=
  decodeChannelAux hash (d_q_scale hash * 1.25) (decIndices termsC)
    ((decIndices termsL).length + (decIndices termsC).length)

/-- `fx[cx] = cos(PI / 32 * (x + 0.5) * cx)` (decode output width 32). -/
def dfx (cosPi : ℚ → ℚ) (x cx : ℕ) : ℚ := cosPi (((x : ℚ) + 0.5) * cx / 32)

/-- `l = l_dc + Σ_j l_ac[j] * fx[cx] * (fy[cy] * 2)` over the decode triangle. -/
def pixelL (cosPi : ℚ → ℚ) (termsL : ℕ) (hash : List ℕ) (x y : ℕ) : ℚ :=
  d_l_dc hash + ((decIndices termsL).enum.map fun e =>
    (d_l_ac termsL hash).getD e.1 0 * dfx cosPi x e.2.1 * (dfx cosPi y e.2.2 * 2)).sum

/-- `p = p_dc + Σ_j p_ac[j] * (fx[cx] * (fy[cy] * 2))`. -/
def pixelP (cosPi : ℚ → ℚ) (termsL termsC : ℕ) (hash : List ℕ) (x y : ℕ) : ℚ :=
  d_p_dc hash + ((decIndices termsC).enum.map fun e =>
    (d_p_ac termsL termsC hash).getD e.1 0 * (dfx cosPi x e.2.1 * (dfx cosPi y e.2.2 * 2))).sum

/-- `q = q_dc + Σ_j q_ac[j] * (fx[cx] * (fy[cy] * 2))`. -/
def pixelQ (cosPi : ℚ → ℚ) (termsL termsC : ℕ) (hash : List ℕ) (x y : ℕ) : ℚ :=
  d_q_dc hash + ((decIndices termsC).enum.map fun e =>
    (d_q_ac termsL termsC hash).getD e.1 0 * (dfx cosPi x e.2.1 * (dfx cosPi y e.2.2 * 2))).sum

/-- `Uint8Array` store of `max(0, 255 * min(1, v))`: the clamped value lies in
    `[0, 255]`, so ToUint8 truncates it toward zero. -/
def toByteQ (v : ℚ) : ℕ := (⌊max 0 (255 * min 1 v)⌋).toNat

/-- One decoded pixel `[r, g, b, 255]`, via `b = l - 2/3*p`, `r = (3*l - b + q)/2`,
    `g = r - q`. -/
def decodePixel (cosPi : ℚ → ℚ) (termsL termsC : ℕ) (hash : List ℕ) (x y : ℕ) : List ℕ :=
  let l := pixelL cosPi termsL hash x y
  let p := pixelP cosPi termsL termsC hash x y
  let q := pixelQ cosPi termsL termsC hash x y
  let b := l - 2 / 3 * p
  let r := (3 * l - b + q) / 2
  let g := r - q
  [toByteQ r, toByteQ g, toByteQ b, 255]

/-- `thumbHashToRGBA(hash)`: `{ w: 32, h: 32, rgba }` with the pixel double loop
    (`y` outer, `x` inner, 4 bytes per pixel). -/
def thumbHashToRGBA (cosPi : ℚ → ℚ) (termsL termsC : ℕ) (hash : List ℕ) :
    ℕ × ℕ × List ℕ :=
  (32, 32, (List.range 32).flatMap fun y =>
    (List.range 32).flatMap fun x => decodePixel cosPi termsL termsC hash x y)

/-- `thumbHashToAverageRGBA(hash)`: DC-only decode plus the alpha presence bit
    `hasAlpha = header >> 23`. -/
def thumbHashToAverageRGBA (hash : List ℕ) : ℚ × ℚ × ℚ × ℚ :=
  let header := dHeader24 hash
  let l : ℚ := ((header &&& 63 : ℕ) : ℚ) / 63
  let p : ℚ := ((header >>> 6 &&& 63 : ℕ) : ℚ) / 31.5 - 1
  let q : ℚ := ((header >>> 12 &&& 63 : ℕ) : ℚ) / 31.5 - 1
  let hasAlpha := header >>> 23
  let a : ℚ := if hasAlpha ≠ 0 then ((hash.getD 5 0 &&& 15 : ℕ) : ℚ) / 15 else 1
  let b := l - 2 / 3 * p
  let r := (3 * l - b + q) / 2
  let g := r - q
  (max 0 (min 1 r), max 0 (min 1 g), max 0 (min 1 b), a)

/-- The 16-entry CRC-32 nibble table of the source, with the signed 32-bit
    entries written as their unsigned 32-bit values. -/
def crcTable : List ℕ :=
  [0, 498536548, 997073096, 651767980, 1994146192, 1802195444, 1303535960,
   1342533948, 3988292384, 4027552580, 3604390888, 3412177804, 2607071920,
   2262029012, 2685067896, 3183342108]

/-- One byte of the CRC loop: `c ^= bytes[i]`, then twice
    `c = (c >>> 4) ^ table[c & 15]` (all values stay below `2^32`). -/
def crcByte (c u : ℕ) : ℕ :=
  let c1 := c ^^^ u
  let c2 := (c1 >>> 4) ^^^ crcTable.getD (c1 &&& 15) 0
  (c2 >>> 4) ^^^ crcTable.getD (c2 &&& 15) 0

/-- CRC-32 of a byte list: start from `~0 = 0xffffffff`, fold `crcByte`, and
    complement (`~c` of a 32-bit value is `0xffffffff - c`). -/
def crc32 (l : List ℕ) : ℕ := 4294967295 - l.foldl crcByte 4294967295

/-- One Adler-32 update `a = (a + u) % 65521; b = (b + a) % 65521`. -/
def adlerByte (ab : ℕ × ℕ) (u : ℕ) : ℕ × ℕ :=
  let a := (ab.1 + u) % 65521
  (a, (ab.2 + a) % 65521)

/-- The `w*4` data bytes `rgba[i] & 255` of scanline `y`. -/
def rowData (rgba : List ℕ) (w y : ℕ) : List ℕ :=
  (List.range (w * 4)).map fun k => rgba.getD (y * (w * 4) + k) 0 &&& 255

/-- The scanline loop of `rgbaToDataURL`, on the remaining row count `k`
    (`k = 0` on the final row, giving `BFINAL = 1`): pushes the stored-block
    header, the filter byte 0 and the row data, threading the Adler state;
    `~row & 255` is written as its two's-complement value `255 - (row & 255)`,
    and the filter byte's Adler update is the bare `b = (b + a) % 65521` of the
    source. -/
def rowsAux (rgba : List ℕ) (w : ℕ) : ℕ → ℕ → ℕ → ℕ → List ℕ × ℕ × ℕ
  | 0, _, a, b => ([], a, b)
  | k + 1, y, a, b =>
      let row := w * 4 + 1
      let data := rowData rgba w y
      let s := data.foldl adlerByte (a, (b + a) % 65521)
      let r := rowsAux rgba w k (y + 1) s.1 s.2
      ((if k = 0 then 1 else 0) :: (row &&& 255) :: (row >>> 8) :: (255 - (row &&& 255)) ::
        ((row >>> 8) ^^^ 255) :: 0 :: (data ++ r.1), r.2)

/-- The initial byte array of `rgbaToDataURL`: PNG signature, IHDR length/type,
    IHDR payload, four zero placeholder bytes for the IHDR CRC, IDAT
    length/type, and the zlib header `[0x78, 0x01]`. The IDAT length bytes use
    unbounded shifts, matching the source's `idat >>> 24` (etc.) whenever
    `idat < 2^32`, where JavaScript's `ToUint32` is the identity; theorems
    about the emitted stream carry a size hypothesis that enforces this. -/
def initialBytes (w h : ℕ) : List ℕ :=
  let idat := 6 + h * (5 + (w * 4 + 1))
  [137, 80, 78, 71, 13, 10, 26, 10, 0, 0, 0, 13, 73, 72, 68, 82, 0, 0,
   w >>> 8, w &&& 255, 0, 0, h >>> 8, h &&& 255, 8, 6, 0, 0, 0, 0, 0, 0, 0,
   idat >>> 24, (idat >>> 16) &&& 255, (idat >>> 8) &&& 255, idat &&& 255,
   73, 68, 65, 84, 120, 1]

/-- The byte array before CRC patching: initial bytes, scanline blocks, the
    big-endian Adler-32 pair, the IDAT CRC placeholder, and the IEND chunk. -/
def bytes0 (w h : ℕ) (rgba : List ℕ) : List ℕ :=
  let r := rowsAux rgba w h 0 1 0
  initialBytes w h ++ r.1 ++
    [r.2.2 >>> 8, r.2.2 &&& 255, r.2.1 >>> 8, r.2.1 &&& 255, 0, 0, 0, 0,
     0, 0, 0, 0, 73, 69, 78, 68, 174, 66, 96, 130]

/-- Write the four big-endian CRC bytes at `pos` (over the zero placeholders). -/
def patch4 (l : List ℕ) (pos c : ℕ) : List ℕ :=
  l.take pos ++ [c >>> 24, (c >>> 16) &&& 255, (c >>> 8) &&& 255, c &&& 255] ++ l.drop (pos + 4)

/-- `rgbaToDataURL`'s byte stream (the part fed to base64): the CRC pass patches
    bytes `[12, 29)` into position 29 (IHDR) and `[37, 41 + idat)` into position
    `41 + idat` (IDAT). This models the source on inputs whose full stream
    length `63 + h*(w*4+6)` is at most `2^32 - 1`: beyond that the source's
    `bytes.push` throws a `RangeError` at the array-length limit (and the IDAT
    length field would wrap), so theorems about `pngBytes` carry that size
    bound as a hypothesis. -/
def pngBytes (w h : ℕ) (rgba : List ℕ) : List ℕ :=
  let idat := 6 + h * (5 + (w * 4 + 1))
  let b0 := bytes0 w h rgba
  let b1 := patch4 b0 29 (crc32 ((b0.drop 12).take 17))
  patch4 b1 (41 + idat) (crc32 ((b1.drop 37).take (4 + idat)))

/-! ### Specification-side definitions (from the claims' wording) -/

/-- Number of AC coefficients of one channel per the spec: pairs `(cx, cy)`
    with `cx * n < n * (n - cy)` and `(cx, cy) ≠ (0, 0)`. -/
def specAcCount (n : ℕ) : ℕ :=
  ((Finset.range n ×ˢ Finset.range n).filter fun p =>
    p.1 * n < n * (n - p.2) ∧ p ≠ (0, 0)).card

/-- Total AC count over the three channels (L, then P and Q). -/
def specTotalAc (termsL termsC : ℕ) : ℕ := specAcCount termsL + 2 * specAcCount termsC

/-- Two 4-bit values per byte, low nibble first (the result of the AC
    serialization loop on a byte array that starts empty past the header). -/
def packNibbles : List ℤ → List ℤ
  | [] => []
  | [a] => [a]
  | a :: b :: rest => Int.lor a (b <<< (4 : ℤ)) :: packNibbles rest

/-! ### Structure of the AC serialization loop -/

/-- Two-step list induction matching the nibble pairing. -/
theorem twoStepInduction {α : Type} {P : List α → Prop} (h0 : P []) (h1 : ∀ a, P [a])
    (h2 : ∀ a b l, P l → P (a :: b :: l)) : ∀ l, P l
  | [] => h0
  | [a] => h1 a
  | a :: b :: l => h2 a b l (twoStepInduction h0 h1 h2 l)

theorem packNibbles_length : ∀ l : List ℤ, (packNibbles l).length = (l.length + 1) / 2 := by
  refine twoStepInduction rfl (fun a => by simp [packNibbles]) ?_
  intro a b l ih
  simp only [packNibbles, List.length_cons, ih]
  omega

theorem orAt_append (pre : List ℤ) (v : ℤ) : orAt pre pre.length v = pre ++ [v] := by
  simp [orAt]

theorem orAt_set (pre : List ℤ) (a v : ℤ) :
    orAt (pre ++ [a]) pre.length v = pre ++ [Int.lor a v] := by
  unfold orAt
  rw [if_pos (by simp)]
  induction pre with
  | nil => simp
  | cons x xs ih => simp only [List.cons_append, List.length_cons, List.set_cons_succ,
      List.getD_cons_succ, List.cons.injEq, true_and] at ih ⊢; exact ih

theorem int_shiftLeft_zero (z : ℤ) : z <<< (0 : ℤ) = z := by
  have h := Int.shiftLeft_eq_mul_pow z 0
  simpa using h

theorem writeACLoop_eq (fs : List ℚ) : ∀ (pre : List ℤ) (m : ℕ), pre.length = 5 + m →
    writeACLoop pre (2 * m) fs = pre ++ packNibbles (fs.map fun f => jsRound (15 * f)) := by
  induction fs using twoStepInduction with
  | h0 => intro pre m hm; simp [writeACLoop, packNibbles]
  | h1 f =>
      intro pre m hm
      have hmod : ((2 * m : ℕ) : ℤ) % 2 = 0 := by push_cast; omega
      simp only [writeACLoop]
      rw [show 2 * m / 2 = m from by omega, hmod, mul_zero, int_shiftLeft_zero, ← hm,
        orAt_append]
      simp [packNibbles]
  | h2 f g rest ih =>
      intro pre m hm
      have hmod : ((2 * m : ℕ) : ℤ) % 2 = 0 := by push_cast; omega
      have hmod1 : ((2 * m + 1 : ℕ) : ℤ) % 2 = 1 := by push_cast; omega
      have step1 : writeACLoop pre (2 * m) (f :: g :: rest)
          = writeACLoop (orAt pre pre.length (jsRound (15 * f))) (2 * m + 1) (g :: rest) := by
        simp only [writeACLoop]
        rw [show 2 * m / 2 = m from by omega, hmod, mul_zero, int_shiftLeft_zero, ← hm]
      have step2 : writeACLoop (pre ++ [jsRound (15 * f)]) (2 * m + 1) (g :: rest)
          = writeACLoop
              (pre ++ [Int.lor (jsRound (15 * f)) (jsRound (15 * g) <<< (4 : ℤ))])
              (2 * (m + 1)) rest := by
        simp only [writeACLoop]
        rw [show (2 * m + 1) / 2 = m from by omega, hmod1, mul_one, ← hm, orAt_set,
          show 2 * m + 1 + 1 = 2 * (m + 1) from by omega]
      rw [step1, orAt_append, step2, ih _ (m + 1) (by simp [hm]; omega)]
      simp [packNibbles]

/-! ### Fold lemmas for `encodeChannel` -/

theorem encFold_ac (cosPi : ℚ → ℚ) (ch : List ℚ) (w h : ℕ) :
    ∀ (L : List (ℕ × ℕ)) (s : ℚ × List ℚ × ℚ),
      (L.foldl (encStep cosPi ch w h) s).2.1
        = s.2.1 ++ (L.filter fun p => p ≠ (0, 0)).map fun p => dctF cosPi ch w h p.1 p.2 := by
  intro L
  induction L with
  | nil => intro s; simp
  | cons p L ih =>
      intro s
      by_cases hp : p = (0, 0)
      · subst hp
        rw [List.foldl_cons, ih]
        have : encStep cosPi ch w h s (0, 0) = (dctF cosPi ch w h 0 0, s.2.1, s.2.2) := by
          simp [encStep]
        rw [this, List.filter_cons_of_neg (by simp)]
      · rw [List.foldl_cons, ih]
        have hne : p.1 ≠ 0 ∨ p.2 ≠ 0 := by
          rcases p with ⟨a, b⟩
          by_contra hc
          push_neg at hc
          apply hp
          simp only [Prod.mk.injEq]
          exact hc
        have : encStep cosPi ch w h s p
            = (s.1, s.2.1 ++ [dctF cosPi ch w h p.1 p.2], max s.2.2 |dctF cosPi ch w h p.1 p.2|) := by
          simp [encStep, hne]
        rw [this, List.filter_cons_of_pos (by simpa using hp)]
        simp

theorem encodeChannel_ac_length (cosPi : ℚ → ℚ) (ch : List ℚ) (w h n : ℕ) :
    (encodeChannel cosPi ch w h n).2.1.length
      = ((coeffIndices n).filter fun p => p ≠ (0, 0)).length := by
  unfold encodeChannel
  by_cases hs : ((coeffIndices n).foldl (encStep cosPi ch w h) (0, [], 0)).2.2 ≠ 0 <;>
    simp [hs, encFold_ac]

/-- For the claims' term range the code's triangular enumeration has exactly
    `specAcCount n` non-DC pairs. -/
theorem coeffIndices_count_eq (n : ℕ) (h1 : 1 ≤ n) (h10 : n ≤ 10) :
    ((coeffIndices n).filter fun p => p ≠ (0, 0)).length = specAcCount n := by
  interval_cases n <;> decide

/-- A successful encode returns exactly the non-throwing payload. -/
theorem rgbaToThumbHash_some (cosPi : ℚ → ℚ) (termsL termsC w h : ℕ) (rgba : List ℕ)
    (hw : w ≤ 100) (hh : h ≤ 100) :
    rgbaToThumbHash cosPi termsL termsC w h rgba
      = some (encOut cosPi termsL termsC w h rgba) := by
  unfold rgbaToThumbHash
  rw [if_neg (by omega)]

/-- Shared shape of a successful encode: header bytes then packed AC nibbles. -/
theorem encode_eq_pack (cosPi : ℚ → ℚ) (termsL termsC w h : ℕ) (rgba : List ℕ)
    (hw : w ≤ 100) (hh : h ≤ 100) :
    rgbaToThumbHash cosPi termsL termsC w h rgba = some
      ((headerHash
          (header24 (encodeChannel cosPi (lList w h rgba) w h termsL).1
            (encodeChannel cosPi (pList w h rgba) w h termsC).1
            (encodeChannel cosPi (qList w h rgba) w h termsC).1
            (encodeChannel cosPi (lList w h rgba) w h termsL).2.2)
          (header16 (encodeChannel cosPi (pList w h rgba) w h termsC).2.2
            (encodeChannel cosPi (qList w h rgba) w h termsC).2.2) ++
        packNibbles
          (((encodeChannel cosPi (lList w h rgba) w h termsL).2.1 ++
              (encodeChannel cosPi (pList w h rgba) w h termsC).2.1 ++
              (encodeChannel cosPi (qList w h rgba) w h termsC).2.1).map
            fun f => jsRound (15 * f))).map toUint8) := by
  rw [rgbaToThumbHash_some cosPi termsL termsC w h rgba hw hh]
  unfold encOut
  have h5 : (headerHash
      (header24 (encodeChannel cosPi (lList w h rgba) w h termsL).1
        (encodeChannel cosPi (pList w h rgba) w h termsC).1
        (encodeChannel cosPi (qList w h rgba) w h termsC).1
        (encodeChannel cosPi (lList w h rgba) w h termsL).2.2)
      (header16 (encodeChannel cosPi (pList w h rgba) w h termsC).2.2
        (encodeChannel cosPi (qList w h rgba) w h termsC).2.2)).length = 5 + 0 := by
    simp [headerHash]
  rw [← writeACLoop_eq _ _ 0 h5]

/-- Shared length formula for a successful encode. -/
theorem hashLength_eq (cosPi : ℚ → ℚ) (termsL termsC w h : ℕ) (rgba : List ℕ)
    (hw : w ≤ 100) (hh : h ≤ 100)
    (htL1 : 1 ≤ termsL) (htL : termsL ≤ 10) (htC1 : 1 ≤ termsC) (htC : termsC ≤ 10) :
    ∃ bytes, rgbaToThumbHash cosPi termsL termsC w h rgba = some bytes ∧
      bytes.length = 5 + (specTotalAc termsL termsC + 1) / 2 := by
  refine ⟨_, encode_eq_pack cosPi termsL termsC w h rgba hw hh, ?_⟩
  rw [List.length_map, List.length_append, packNibbles_length, List.length_map,
    List.length_append, List.length_append]
  rw [encodeChannel_ac_length, encodeChannel_ac_length, encodeChannel_ac_length,
    coeffIndices_count_eq termsL htL1 htL, coeffIndices_count_eq termsC htC1 htC]
  simp [headerHash, specTotalAc]
  omega

/-! ### Claim C1: hash length -/

/-- Claim C1: for valid dimensions, buffer and term counts, the encoder returns a
    byte sequence of length exactly `5 + ceil(totalAc / 2)`, where `totalAc`
    counts the pairs `(cx, cy)` with `cx * n < n * (n - cy)`, `(cx, cy) ≠ (0, 0)`
    over the L (`n = termsL`), P and Q (`n = termsC`) channels. -/
theorem c1_hash_length (cosPi : ℚ → ℚ) (termsL termsC w h : ℕ) (rgba : List ℕ)
    (hw1 : 1 ≤ w) (hw100 : w ≤ 100) (hh1 : 1 ≤ h) (hh100 : h ≤ 100)
    (hlen : rgba.length = w * h * 4)
    (htL1 : 1 ≤ termsL) (htL10 : termsL ≤ 10) (htC1 : 1 ≤ termsC) (htC10 : termsC ≤ 10) :
    ∃ bytes, rgbaToThumbHash cosPi termsL termsC w h rgba = some bytes ∧
      bytes.length = 5 + (specTotalAc termsL termsC + 1) / 2 :=
  hashLength_eq cosPi termsL termsC w h rgba hw100 hh100 htL1 htL10 htC1 htC10

/-- Claim C1 witness at a concrete input. -/
theorem c1_hash_length_witness :
    (1 ≤ 1 ∧ 1 ≤ 100 ∧ ([0, 0, 0, 0] : List ℕ).length = 1 * 1 * 4 ∧
      1 ≤ 4 ∧ 4 ≤ 10 ∧ 1 ≤ 3 ∧ 3 ≤ 10) ∧
    ∃ bytes, rgbaToThumbHash (fun _ => 1) 4 3 1 1 [0, 0, 0, 0] = some bytes ∧
      bytes.length = 5 + (specTotalAc 4 3 + 1) / 2 :=
  ⟨by decide,
    c1_hash_length (fun _ => 1) 4 3 1 1 [0, 0, 0, 0] (by decide) (by decide) (by decide)
      (by decide) (by decide) (by decide) (by decide) (by decide) (by decide)⟩

/-! ### Claim C6: the dimension check -/

/-- Claim C6: the encoder fails (throws the dimension error, modelled as `none`)
    if and only if `w > 100` or `h > 100`; in particular `w = 101` or `h = 101`
    fails and `w = h = 100` succeeds, and within the limit no error is raised. -/
theorem c6_dimension_check (cosPi : ℚ → ℚ) (termsL termsC w h : ℕ) (rgba : List ℕ) :
    rgbaToThumbHash cosPi termsL termsC w h rgba = none ↔ 100 < w ∨ 100 < h := by
  unfold rgbaToThumbHash
  by_cases hd : 100 < w ∨ 100 < h
  · simp [hd]
  · simp [hd]

/-! ### Claim C8: the count at `termsL = 4, termsC = 3` -/

/-- Claim C8 counterexample: at `termsL = 4, termsC = 3` the triangular
    enumeration yields 19 AC coefficients (not 17), and a concrete valid encode
    returns 15 bytes (not 14). -/
theorem c8_counterexample :
    specTotalAc 4 3 = 19 ∧ specTotalAc 4 3 ≠ 17 ∧
    (rgbaToThumbHash (fun _ => 1) 4 3 1 1 [0, 0, 0, 0]).map List.length = some 15 ∧
    (rgbaToThumbHash (fun _ => 1) 4 3 1 1 [0, 0, 0, 0]).map List.length ≠ some 14 := by
  obtain ⟨bytes, h1, h2⟩ := hashLength_eq (fun _ => 1) 4 3 1 1 [0, 0, 0, 0]
    (by decide) (by decide) (by decide) (by decide) (by decide) (by decide)
  have hlen : bytes.length = 15 := by rw [h2]; decide
  refine ⟨by decide, by decide, ?_, ?_⟩ <;> rw [h1] <;> simp [hlen]

/-- Claim C8 as amended: at `termsL = 4, termsC = 3` the triangular enumeration
    yields 19 AC coefficients in total, and every valid input encodes to a hash
    of exactly 15 bytes. -/
theorem c8_amended (cosPi : ℚ → ℚ) (w h : ℕ) (rgba : List ℕ)
    (hw1 : 1 ≤ w) (hw100 : w ≤ 100) (hh1 : 1 ≤ h) (hh100 : h ≤ 100)
    (hlen : rgba.length = w * h * 4) :
    specTotalAc 4 3 = 19 ∧
    ∃ bytes, rgbaToThumbHash cosPi 4 3 w h rgba = some bytes ∧ bytes.length = 15 := by
  refine ⟨by decide, ?_⟩
  obtain ⟨bytes, h1, h2⟩ := hashLength_eq cosPi 4 3 w h rgba hw100 hh100
    (by decide) (by decide) (by decide) (by decide)
  exact ⟨bytes, h1, by rw [h2]; decide⟩

/-- Claim C8 (amended) witness at a concrete input. -/
theorem c8_amended_witness :
    (1 ≤ 1 ∧ 1 ≤ 100 ∧ ([0, 0, 0, 0] : List ℕ).length = 1 * 1 * 4) ∧
    (specTotalAc 4 3 = 19 ∧
      ∃ bytes, rgbaToThumbHash (fun _ => 1) 4 3 1 1 [0, 0, 0, 0] = some bytes ∧
        bytes.length = 15) :=
  ⟨by decide,
    c8_amended (fun _ => 1) 1 1 [0, 0, 0, 0] (by decide) (by decide) (by decide) (by decide)
      (by decide)⟩

/-! ### Claim C2: decode output shape and alpha -/

theorem flatMap_length_const {α β : Type} (f : α → List β) (c : ℕ) :
    ∀ l : List α, (∀ a ∈ l, (f a).length = c) → (l.flatMap f).length = c * l.length := by
  intro l
  induction l with
  | nil => simp
  | cons a t ih =>
      intro hl
      rw [List.flatMap_cons, List.length_append, hl a (by simp), ih fun b hb => hl b (by simp [hb])]
      simp [Nat.mul_succ, Nat.add_comm]

theorem flatMap_getD_const {α β : Type} (f : α → List β) (d : β) (c j : ℕ) (v : β)
    (hlen : ∀ a, (f a).length = c) (hval : ∀ a, (f a).getD j d = v) (hj : j < c) :
    ∀ (l : List α) (k : ℕ), k < l.length → (l.flatMap f).getD (c * k + j) d = v := by
  intro l
  induction l with
  | nil => intro k hk; simp at hk
  | cons a t ih =>
      intro k hk
      cases k with
      | zero =>
          rw [List.flatMap_cons, Nat.mul_zero, Nat.zero_add,
            List.getD_append _ _ _ _ (by rw [hlen a]; exact hj)]
          exact hval a
      | succ k =>
          rw [List.flatMap_cons,
            show c * (k + 1) + j = (f a).length + (c * k + j) by rw [hlen a]; ring]
          rw [List.getD_append_right _ _ _ _ (Nat.le_add_right _ _), Nat.add_sub_cancel_left]
          exact ih k (by simpa using hk)

theorem decodePixel_length (cosPi : ℚ → ℚ) (termsL termsC : ℕ) (hash : List ℕ) (x y : ℕ) :
    (decodePixel cosPi termsL termsC hash x y).length = 4 := rfl

theorem decodePixel_alpha (cosPi : ℚ → ℚ) (termsL termsC : ℕ) (hash : List ℕ) (x y : ℕ) :
    (decodePixel cosPi termsL termsC hash x y).getD 3 0 = 255 := rfl

/-- Claim C2: for every hash produced by a valid encode, the decoder returns
    width 32, height 32 and a 4096-byte RGBA buffer whose every alpha sample
    (byte `4k + 3`) is 255. -/
theorem c2_decode_shape (cosPi : ℚ → ℚ) (termsL termsC w h : ℕ) (rgba hash : List ℕ)
    (hw1 : 1 ≤ w) (hw100 : w ≤ 100) (hh1 : 1 ≤ h) (hh100 : h ≤ 100)
    (hlen : rgba.length = w * h * 4)
    (henc : rgbaToThumbHash cosPi termsL termsC w h rgba = some hash) :
    (thumbHashToRGBA cosPi termsL termsC hash).1 = 32 ∧
    (thumbHashToRGBA cosPi termsL termsC hash).2.1 = 32 ∧
    (thumbHashToRGBA cosPi termsL termsC hash).2.2.length = 32 * 32 * 4 ∧
    ∀ k, k < 1024 → (thumbHashToRGBA cosPi termsL termsC hash).2.2.getD (4 * k + 3) 0 = 255 := by
  have hrow : ∀ y : ℕ,
      ((List.range 32).flatMap fun x => decodePixel cosPi termsL termsC hash x y).length
        = 4 * 32 :=
    fun y => flatMap_length_const _ 4 _ fun a _ => decodePixel_length cosPi termsL termsC hash a y
  refine ⟨rfl, rfl, ?_, ?_⟩
  · show ((List.range 32).flatMap fun y =>
      (List.range 32).flatMap fun x => decodePixel cosPi termsL termsC hash x y).length
        = 32 * 32 * 4
    rw [flatMap_length_const _ (4 * 32) _ fun a _ => hrow a]
    simp
  · intro k hk
    show ((List.range 32).flatMap fun y =>
      (List.range 32).flatMap fun x => decodePixel cosPi termsL termsC hash x y).getD
        (4 * k + 3) 0 = 255
    have hsplit : 4 * k + 3 = (4 * 32) * (k / 32) + (4 * (k % 32) + 3) := by omega
    rw [hsplit]
    refine flatMap_getD_const _ 0 (4 * 32) (4 * (k % 32) + 3) 255
      (fun a => hrow a) ?_ (by omega) _ (k / 32) (by simp; omega)
    intro y
    exact flatMap_getD_const _ 0 4 3 255
      (fun a => decodePixel_length cosPi termsL termsC hash a y)
      (fun a => decodePixel_alpha cosPi termsL termsC hash a y) (by omega)
      _ (k % 32) (by simp; omega)

/-- Claim C2 witness at a concrete input. -/
theorem c2_decode_shape_witness :
    (1 ≤ 1 ∧ 1 ≤ 100 ∧ ([0, 0, 0, 0] : List ℕ).length = 1 * 1 * 4 ∧
      rgbaToThumbHash (fun _ => 1) 1 1 1 1 [0, 0, 0, 0]
        = some (encOut (fun _ => 1) 1 1 1 1 [0, 0, 0, 0])) ∧
    ((thumbHashToRGBA (fun _ => 1) 1 1 (encOut (fun _ => 1) 1 1 1 1 [0, 0, 0, 0])).1 = 32 ∧
     (thumbHashToRGBA (fun _ => 1) 1 1 (encOut (fun _ => 1) 1 1 1 1 [0, 0, 0, 0])).2.1 = 32 ∧
     (thumbHashToRGBA (fun _ => 1) 1 1
        (encOut (fun _ => 1) 1 1 1 1 [0, 0, 0, 0])).2.2.length = 32 * 32 * 4 ∧
     ∀ k, k < 1024 → (thumbHashToRGBA (fun _ => 1) 1 1
        (encOut (fun _ => 1) 1 1 1 1 [0, 0, 0, 0])).2.2.getD (4 * k + 3) 0 = 255) :=
  ⟨⟨le_refl 1, by decide, by decide,
      rgbaToThumbHash_some (fun _ => 1) 1 1 1 1 [0, 0, 0, 0] (by decide) (by decide)⟩,
    c2_decode_shape (fun _ => 1) 1 1 1 1 [0, 0, 0, 0] (encOut (fun _ => 1) 1 1 1 1 [0, 0, 0, 0])
      (by decide) (by decide) (by decide) (by decide) (by decide)
      (rgbaToThumbHash_some (fun _ => 1) 1 1 1 1 [0, 0, 0, 0] (by decide) (by decide))⟩

/-! ### Claim C5: the forward DCT channel transform -/

/-- The AC coefficients in enumeration order, per the spec wording. -/
def specRawAc (cosPi : ℚ → ℚ) (ch : List ℚ) (w h n : ℕ) : List ℚ :=
  ((coeffIndices n).filter fun p => p ≠ (0, 0)).map fun p => dctF cosPi ch w h p.1 p.2

/-- The maximum absolute value of the AC coefficients (0 when there are none). -/
def specScale (cosPi : ℚ → ℚ) (ch : List ℚ) (w h n : ℕ) : ℚ :=
  ((specRawAc cosPi ch w h n).map abs).foldl max 0

theorem foldl_max_init {s : ℚ} : ∀ l : List ℚ, s ≤ l.foldl max s := by
  intro l
  induction l generalizing s with
  | nil => simp
  | cons x t ih => exact le_trans (le_max_left s x) (ih (s := max s x))

theorem foldl_max_mem {v : ℚ} : ∀ (l : List ℚ) (s : ℚ), v ∈ l → v ≤ l.foldl max s := by
  intro l
  induction l with
  | nil => intro s hv; simp at hv
  | cons x t ih =>
      intro s hv
      rw [List.foldl_cons]
      rcases List.mem_cons.mp hv with hx | ht
      · subst hx
        exact le_trans (le_max_right s v) (foldl_max_init t)
      · exact ih _ ht

theorem foldl_max_le {M : ℚ} : ∀ (l : List ℚ) (s : ℚ), s ≤ M → (∀ v ∈ l, v ≤ M) →
    l.foldl max s ≤ M := by
  intro l
  induction l with
  | nil => intro s hs _; simpa using hs
  | cons x t ih =>
      intro s hs hl
      exact ih _ (max_le hs (hl x (by simp))) fun v hv => hl v (by simp [hv])

theorem encFold_dc_skip (cosPi : ℚ → ℚ) (ch : List ℚ) (w h : ℕ) :
    ∀ (L : List (ℕ × ℕ)) (s : ℚ × List ℚ × ℚ), (∀ p ∈ L, p ≠ (0, 0)) →
      (L.foldl (encStep cosPi ch w h) s).1 = s.1 := by
  intro L
  induction L with
  | nil => intro s _; rfl
  | cons p L ih =>
      intro s hL
      have hne : p.1 ≠ 0 ∨ p.2 ≠ 0 := by
        have := hL p (by simp)
        rcases p with ⟨a, b⟩
        by_contra hc
        push_neg at hc
        apply this
        simp only [Prod.mk.injEq]
        exact hc
      rw [List.foldl_cons, ih _ fun q hq => hL q (by simp [hq])]
      simp [encStep, hne]

theorem encFold_scale (cosPi : ℚ → ℚ) (ch : List ℚ) (w h : ℕ) :
    ∀ (L : List (ℕ × ℕ)) (s : ℚ × List ℚ × ℚ),
      (L.foldl (encStep cosPi ch w h) s).2.2
        = ((L.filter fun p => p ≠ (0, 0)).map fun p => |dctF cosPi ch w h p.1 p.2|).foldl
            max s.2.2 := by
  intro L
  induction L with
  | nil => intro s; rfl
  | cons p L ih =>
      intro s
      by_cases hp : p = (0, 0)
      · subst hp
        rw [List.foldl_cons, ih, List.filter_cons_of_neg (by simp)]
        have : encStep cosPi ch w h s (0, 0) = (dctF cosPi ch w h 0 0, s.2.1, s.2.2) := by
          simp [encStep]
        rw [this]
      · have hne : p.1 ≠ 0 ∨ p.2 ≠ 0 := by
          rcases p with ⟨a, b⟩
          by_contra hc
          push_neg at hc
          apply hp
          simp only [Prod.mk.injEq]
          exact hc
        rw [List.foldl_cons, ih, List.filter_cons_of_pos (by simpa using hp)]
        have : encStep cosPi ch w h s p
            = (s.1, s.2.1 ++ [dctF cosPi ch w h p.1 p.2],
                max s.2.2 |dctF cosPi ch w h p.1 p.2|) := by
          simp [encStep, hne]
        rw [this]
        simp

theorem coeffIndices_head (n : ℕ) (h1 : 1 ≤ n) (h10 : n ≤ 10) :
    coeffIndices n = (0, 0) :: (coeffIndices n).tail ∧
      ∀ p ∈ (coeffIndices n).tail, p ≠ (0, 0) := by
  interval_cases n <;> exact ⟨rfl, by decide⟩

theorem specScale_nonneg (cosPi : ℚ → ℚ) (ch : List ℚ) (w h n : ℕ) :
    0 ≤ specScale cosPi ch w h n := foldl_max_init _

theorem encodeChannel_dc (cosPi : ℚ → ℚ) (ch : List ℚ) (w h n : ℕ)
    (h1 : 1 ≤ n) (h10 : n ≤ 10) :
    (encodeChannel cosPi ch w h n).1 = dctF cosPi ch w h 0 0 := by
  obtain ⟨hhead, htail⟩ := coeffIndices_head n h1 h10
  unfold encodeChannel
  rw [hhead, List.foldl_cons, encFold_dc_skip cosPi ch w h _ _ htail]
  simp [encStep]

theorem specScale_foldl (cosPi : ℚ → ℚ) (ch : List ℚ) (w h n : ℕ) :
    specScale cosPi ch w h n
      = (((coeffIndices n).filter fun p => p ≠ (0, 0)).map
          fun p => |dctF cosPi ch w h p.1 p.2|).foldl max 0 := by
  unfold specScale specRawAc
  rw [List.map_map]
  rfl

theorem encodeChannel_scale (cosPi : ℚ → ℚ) (ch : List ℚ) (w h n : ℕ) :
    (encodeChannel cosPi ch w h n).2.2 = specScale cosPi ch w h n := by
  simp only [encodeChannel]
  rw [encFold_scale, specScale_foldl]

theorem encodeChannel_acRaw (cosPi : ℚ → ℚ) (ch : List ℚ) (w h n : ℕ) :
    ((coeffIndices n).foldl (encStep cosPi ch w h) (0, [], 0)).2.1
      = specRawAc cosPi ch w h n := by
  rw [encFold_ac]
  simp [specRawAc]

theorem encodeChannel_ac (cosPi : ℚ → ℚ) (ch : List ℚ) (w h n : ℕ) :
    (encodeChannel cosPi ch w h n).2.1
      = if specScale cosPi ch w h n ≠ 0 then
          (specRawAc cosPi ch w h n).map fun v => 0.5 + 0.5 / specScale cosPi ch w h n * v
        else specRawAc cosPi ch w h n := by
  simp only [encodeChannel]
  rw [encFold_scale, encodeChannel_acRaw, specScale_foldl]

/-- Claim C5: `encodeChannel` computes, over the triangle visited with `cy`
    outer and `cx` while `cx * n < n * (n - cy)`, the normalized DCT: the
    `(0, 0)` coefficient is the DC value, the other coefficients are the AC
    terms in enumeration order, the returned scale is their maximum absolute
    value, AC terms are replaced by `0.5 + 0.5 * ac / scale` when the scale is
    positive, and all AC terms are zero when the scale is zero. -/
theorem c5_encode_channel (cosPi : ℚ → ℚ) (ch : List ℚ) (w h n : ℕ)
    (hw1 : 1 ≤ w) (hw100 : w ≤ 100) (hh1 : 1 ≤ h) (hh100 : h ≤ 100)
    (hch : ch.length = w * h) (hn1 : 1 ≤ n) (hn10 : n ≤ 10) :
    encodeChannel cosPi ch w h n
      = (dctF cosPi ch w h 0 0,
         if 0 < specScale cosPi ch w h n then
           (specRawAc cosPi ch w h n).map fun v => 0.5 + 0.5 * v / specScale cosPi ch w h n
         else specRawAc cosPi ch w h n,
         specScale cosPi ch w h n) ∧
    (specScale cosPi ch w h n = 0 → ∀ f ∈ (encodeChannel cosPi ch w h n).2.1, f = 0) := by
  have hdc := encodeChannel_dc cosPi ch w h n hn1 hn10
  have hsc := encodeChannel_scale cosPi ch w h n
  have hac := encodeChannel_ac cosPi ch w h n
  have hzero : specScale cosPi ch w h n = 0 → ∀ f ∈ specRawAc cosPi ch w h n, f = 0 := by
    intro hz f hf
    have h1 : |f| ≤ specScale cosPi ch w h n :=
      foldl_max_mem _ _ (List.mem_map_of_mem abs hf)
    rw [hz] at h1
    exact abs_nonpos_iff.mp h1
  constructor
  · have hmain : encodeChannel cosPi ch w h n
        = ((encodeChannel cosPi ch w h n).1, (encodeChannel cosPi ch w h n).2.1,
            (encodeChannel cosPi ch w h n).2.2) := rfl
    rw [hmain, hdc, hsc, hac]
    refine congrArg (fun t => (dctF cosPi ch w h 0 0, t, specScale cosPi ch w h n)) ?_
    by_cases hz : specScale cosPi ch w h n = 0
    · rw [if_neg (by simp [hz]), if_neg (by simp [hz])]
    · have hpos : 0 < specScale cosPi ch w h n :=
        lt_of_le_of_ne (specScale_nonneg cosPi ch w h n) (Ne.symm hz)
      rw [if_pos hz, if_pos hpos]
      exact List.map_congr_left fun v _ => by ring
  · intro hz f hf
    rw [hac, if_neg (by simp [hz])] at hf
    exact hzero hz f hf

/-- Claim C5 witness at a concrete input. -/
theorem c5_encode_channel_witness :
    (1 ≤ 1 ∧ 1 ≤ 100 ∧ ([0] : List ℚ).length = 1 * 1 ∧ 1 ≤ 1 ∧ 1 ≤ 10) ∧
    (encodeChannel (fun _ => 1) [0] 1 1 1
      = (dctF (fun _ => 1) [0] 1 1 0 0,
         if 0 < specScale (fun _ => 1) [0] 1 1 1 then
           (specRawAc (fun _ => 1) [0] 1 1 1).map
             fun v => 0.5 + 0.5 * v / specScale (fun _ => 1) [0] 1 1 1
         else specRawAc (fun _ => 1) [0] 1 1 1,
         specScale (fun _ => 1) [0] 1 1 1) ∧
     (specScale (fun _ => 1) [0] 1 1 1 = 0 →
        ∀ f ∈ (encodeChannel (fun _ => 1) [0] 1 1 1).2.1, f = 0)) :=
  ⟨⟨le_refl 1, by decide, rfl, le_refl 1, by decide⟩,
    c5_encode_channel (fun _ => 1) [0] 1 1 1 (by decide) (by decide) (by decide) (by decide)
      rfl (by decide) (by decide)⟩

/-! ### Bounds on the channels and the DCT (used by C3, C9, C10) -/

theorem getD_cases {α : Type} (l : List α) (d : α) : ∀ j, l.getD j d = d ∨ l.getD j d ∈ l := by
  induction l with
  | nil => intro j; left; simp
  | cons x t ih =>
      intro j
      cases j with
      | zero => right; simp
      | succ j =>
          rw [List.getD_cons_succ]
          rcases ih j with hd | hm
          · left; exact hd
          · right; exact List.mem_cons_of_mem x hm

theorem rgbaAt_nonneg (rgba : List ℕ) (j : ℕ) : 0 ≤ rgbaAt rgba j :=
  Nat.cast_nonneg _

theorem rgbaAt_le (rgba : List ℕ) (hval : ∀ v ∈ rgba, v ≤ 255) (j : ℕ) :
    rgbaAt rgba j ≤ 255 := by
  unfold rgbaAt
  rcases getD_cases rgba 0 j with hd | hm
  · rw [hd]; norm_num
  · exact_mod_cast hval _ hm

theorem alphaAt_bounds (rgba : List ℕ) (hval : ∀ v ∈ rgba, v ≤ 255) (i : ℕ) :
    0 ≤ alphaAt rgba i ∧ alphaAt rgba i ≤ 1 := by
  unfold alphaAt
  constructor
  · exact div_nonneg (rgbaAt_nonneg _ _) (by norm_num)
  · rw [div_le_one (by norm_num)]
    exact rgbaAt_le rgba hval _

theorem avgTerm_bounds (rgba : List ℕ) (hval : ∀ v ∈ rgba, v ≤ 255) (i j : ℕ) :
    0 ≤ alphaAt rgba i / 255 * rgbaAt rgba j ∧ alphaAt rgba i / 255 * rgbaAt rgba j ≤ 1 := by
  obtain ⟨ha0, ha1⟩ := alphaAt_bounds rgba hval i
  have hr0 := rgbaAt_nonneg rgba j
  have hr1 := rgbaAt_le rgba hval j
  constructor
  · positivity
  · nlinarith

theorem avg_le_one {m : ℕ} (hm : 1 ≤ m) (f : ℕ → ℚ) (h0 : ∀ i, 0 ≤ f i) (h1 : ∀ i, f i ≤ 1) :
    0 ≤ (∑ i ∈ Finset.range m, f i) / m ∧ (∑ i ∈ Finset.range m, f i) / m ≤ 1 := by
  have hmq : (0 : ℚ) < m := by exact_mod_cast hm
  constructor
  · exact div_nonneg (Finset.sum_nonneg fun i _ => h0 i) (le_of_lt hmq)
  · rw [div_le_one hmq]
    calc ∑ i ∈ Finset.range m, f i ≤ ∑ _i ∈ Finset.range m, (1 : ℚ) :=
          Finset.sum_le_sum fun i _ => h1 i
      _ = m := by simp

theorem avg_r_bounds (w h : ℕ) (rgba : List ℕ) (hwh : 1 ≤ w * h)
    (hval : ∀ v ∈ rgba, v ≤ 255) : 0 ≤ avg_r w h rgba ∧ avg_r w h rgba ≤ 1 := by
  unfold avg_r
  rw [show ((w : ℚ) * h) = ((w * h : ℕ) : ℚ) by push_cast; ring]
  exact avg_le_one hwh _ (fun i => (avgTerm_bounds rgba hval i _).1)
    fun i => (avgTerm_bounds rgba hval i _).2

theorem avg_g_bounds (w h : ℕ) (rgba : List ℕ) (hwh : 1 ≤ w * h)
    (hval : ∀ v ∈ rgba, v ≤ 255) : 0 ≤ avg_g w h rgba ∧ avg_g w h rgba ≤ 1 := by
  unfold avg_g
  rw [show ((w : ℚ) * h) = ((w * h : ℕ) : ℚ) by push_cast; ring]
  exact avg_le_one hwh _ (fun i => (avgTerm_bounds rgba hval i _).1)
    fun i => (avgTerm_bounds rgba hval i _).2

theorem avg_b_bounds (w h : ℕ) (rgba : List ℕ) (hwh : 1 ≤ w * h)
    (hval : ∀ v ∈ rgba, v ≤ 255) : 0 ≤ avg_b w h rgba ∧ avg_b w h rgba ≤ 1 := by
  unfold avg_b
  rw [show ((w : ℚ) * h) = ((w * h : ℕ) : ℚ) by push_cast; ring]
  exact avg_le_one hwh _ (fun i => (avgTerm_bounds rgba hval i _).1)
    fun i => (avgTerm_bounds rgba hval i _).2

theorem pixMix_bounds {avg alpha sample : ℚ} (havg : 0 ≤ avg ∧ avg ≤ 1)
    (ha : 0 ≤ alpha ∧ alpha ≤ 1) (hs : 0 ≤ sample ∧ sample ≤ 255) :
    0 ≤ avg * (1 - alpha) + alpha / 255 * sample ∧
      avg * (1 - alpha) + alpha / 255 * sample ≤ 1 := by
  obtain ⟨h1, h2⟩ := havg
  obtain ⟨h3, h4⟩ := ha
  obtain ⟨h5, h6⟩ := hs
  constructor <;> nlinarith

theorem pixR_bounds (w h : ℕ) (rgba : List ℕ) (hwh : 1 ≤ w * h)
    (hval : ∀ v ∈ rgba, v ≤ 255) (i : ℕ) :
    0 ≤ pixR w h rgba i ∧ pixR w h rgba i ≤ 1 :=
  pixMix_bounds (avg_r_bounds w h rgba hwh hval) (alphaAt_bounds rgba hval i)
    ⟨rgbaAt_nonneg rgba _, rgbaAt_le rgba hval _⟩

theorem pixG_bounds (w h : ℕ) (rgba : List ℕ) (hwh : 1 ≤ w * h)
    (hval : ∀ v ∈ rgba, v ≤ 255) (i : ℕ) :
    0 ≤ pixG w h rgba i ∧ pixG w h rgba i ≤ 1 :=
  pixMix_bounds (avg_g_bounds w h rgba hwh hval) (alphaAt_bounds rgba hval i)
    ⟨rgbaAt_nonneg rgba _, rgbaAt_le rgba hval _⟩

theorem pixB_bounds (w h : ℕ) (rgba : List ℕ) (hwh : 1 ≤ w * h)
    (hval : ∀ v ∈ rgba, v ≤ 255) (i : ℕ) :
    0 ≤ pixB w h rgba i ∧ pixB w h rgba i ≤ 1 :=
  pixMix_bounds (avg_b_bounds w h rgba hwh hval) (alphaAt_bounds rgba hval i)
    ⟨rgbaAt_nonneg rgba _, rgbaAt_le rgba hval _⟩

theorem getD_map_range (m : ℕ) (f : ℕ → ℚ) (i : ℕ) :
    ((List.range m).map f).getD i 0 = if i < m then f i else 0 := by
  by_cases hi : i < m
  · rw [if_pos hi, List.getD_eq_getElem _ _ (by simpa using hi)]
    simp
  · rw [if_neg hi, List.getD_eq_default]
    simpa using Nat.le_of_not_lt hi

theorem lList_getD_bounds (w h : ℕ) (rgba : List ℕ) (hwh : 1 ≤ w * h)
    (hval : ∀ v ∈ rgba, v ≤ 255) (i : ℕ) :
    0 ≤ (lList w h rgba).getD i 0 ∧ (lList w h rgba).getD i 0 ≤ 1 := by
  unfold lList
  rw [getD_map_range]
  by_cases hi : i < w * h
  · rw [if_pos hi]
    obtain ⟨r0, r1⟩ := pixR_bounds w h rgba hwh hval i
    obtain ⟨g0, g1⟩ := pixG_bounds w h rgba hwh hval i
    obtain ⟨b0, b1⟩ := pixB_bounds w h rgba hwh hval i
    constructor <;> nlinarith
  · rw [if_neg hi]; norm_num

theorem pList_getD_abs (w h : ℕ) (rgba : List ℕ) (hwh : 1 ≤ w * h)
    (hval : ∀ v ∈ rgba, v ≤ 255) (i : ℕ) : |(pList w h rgba).getD i 0| ≤ 1 := by
  unfold pList
  rw [getD_map_range]
  by_cases hi : i < w * h
  · rw [if_pos hi]
    obtain ⟨r0, r1⟩ := pixR_bounds w h rgba hwh hval i
    obtain ⟨g0, g1⟩ := pixG_bounds w h rgba hwh hval i
    obtain ⟨b0, b1⟩ := pixB_bounds w h rgba hwh hval i
    rw [abs_le]
    constructor <;> nlinarith
  · rw [if_neg hi]; norm_num

theorem qList_getD_abs (w h : ℕ) (rgba : List ℕ) (hwh : 1 ≤ w * h)
    (hval : ∀ v ∈ rgba, v ≤ 255) (i : ℕ) : |(qList w h rgba).getD i 0| ≤ 1 := by
  unfold qList
  rw [getD_map_range]
  by_cases hi : i < w * h
  · rw [if_pos hi]
    obtain ⟨r0, r1⟩ := pixR_bounds w h rgba hwh hval i
    obtain ⟨g0, g1⟩ := pixG_bounds w h rgba hwh hval i
    rw [abs_le]
    constructor <;> nlinarith
  · rw [if_neg hi]; norm_num

theorem abs_dctF_le (cosPi : ℚ → ℚ) (ch : List ℚ) (w h : ℕ) {M : ℚ}
    (hcos : ∀ t, |cosPi t| ≤ 1) (hM : 0 ≤ M) (hch : ∀ i, |ch.getD i 0| ≤ M)
    (hw1 : 1 ≤ w) (hh1 : 1 ≤ h) (cx cy : ℕ) : |dctF cosPi ch w h cx cy| ≤ M := by
  unfold dctF
  have hwq : (0 : ℚ) < w := by exact_mod_cast hw1
  have hhq : (0 : ℚ) < h := by exact_mod_cast hh1
  have hwh : (0 : ℚ) < (w : ℚ) * h := by positivity
  rw [abs_div, abs_of_pos hwh, div_le_iff hwh]
  have hterm : ∀ y x : ℕ,
      |ch.getD (x + y * w) 0 * cosPi ((cx : ℚ) * ((x : ℚ) + 0.5) / w)
        * cosPi ((cy : ℚ) * ((y : ℚ) + 0.5) / h)| ≤ M := by
    intro y x
    rw [abs_mul, abs_mul]
    calc |ch.getD (x + y * w) 0| * |cosPi ((cx : ℚ) * ((x : ℚ) + 0.5) / w)|
          * |cosPi ((cy : ℚ) * ((y : ℚ) + 0.5) / h)|
        ≤ M * 1 * 1 := by
          refine mul_le_mul (mul_le_mul (hch _) (hcos _) (abs_nonneg _) hM) (hcos _)
            (abs_nonneg _) (by positivity)
      _ = M := by ring
  calc |∑ y ∈ Finset.range h, ∑ x ∈ Finset.range w,
        ch.getD (x + y * w) 0 * cosPi ((cx : ℚ) * ((x : ℚ) + 0.5) / w)
          * cosPi ((cy : ℚ) * ((y : ℚ) + 0.5) / h)|
      ≤ ∑ y ∈ Finset.range h, |∑ x ∈ Finset.range w,
          ch.getD (x + y * w) 0 * cosPi ((cx : ℚ) * ((x : ℚ) + 0.5) / w)
            * cosPi ((cy : ℚ) * ((y : ℚ) + 0.5) / h)| :=
        Finset.abs_sum_le_sum_abs _ _
    _ ≤ ∑ _y ∈ Finset.range h, ∑ _x ∈ Finset.range w, M := by
        refine Finset.sum_le_sum fun y _ => ?_
        exact le_trans (Finset.abs_sum_le_sum_abs _ _)
          (Finset.sum_le_sum fun x _ => hterm y x)
    _ = M * ((w : ℚ) * h) := by
        simp [Finset.sum_const, nsmul_eq_mul]
        ring

theorem dctF_00_nonneg (cosPi : ℚ → ℚ) (ch : List ℚ) (w h : ℕ)
    (hch0 : ∀ i, 0 ≤ ch.getD i 0) : 0 ≤ dctF cosPi ch w h 0 0 := by
  unfold dctF
  have hwh : (0 : ℚ) ≤ (w : ℚ) * h := by positivity
  refine div_nonneg (Finset.sum_nonneg fun y _ => Finset.sum_nonneg fun x _ => ?_) hwh
  have h0 : ((0 : ℕ) : ℚ) * ((x : ℚ) + 0.5) / w = 0 := by norm_num
  have h0' : ((0 : ℕ) : ℚ) * ((y : ℚ) + 0.5) / h = 0 := by norm_num
  rw [h0, h0', mul_assoc]
  exact mul_nonneg (hch0 _) (mul_self_nonneg _)

/-! ### Quantization bounds and integer bridges -/

theorem jsRound_mem {x : ℚ} {m : ℕ} (h0 : 0 ≤ x) (hm : x ≤ m) :
    0 ≤ jsRound x ∧ jsRound x ≤ m := by
  unfold jsRound
  constructor
  · exact Int.le_floor.mpr (by push_cast; linarith)
  · have h := Int.floor_lt.mpr (show x + 1/2 < ((m + 1 : ℤ) : ℚ) by push_cast; linarith)
    omega

theorem specScale_le_one (cosPi : ℚ → ℚ) (ch : List ℚ) (w h n : ℕ)
    (hcos : ∀ t, |cosPi t| ≤ 1) (hch : ∀ i, |ch.getD i 0| ≤ 1)
    (hw1 : 1 ≤ w) (hh1 : 1 ≤ h) : specScale cosPi ch w h n ≤ 1 := by
  refine foldl_max_le _ _ (by norm_num) fun v hv => ?_
  obtain ⟨u, hu, huv⟩ := List.mem_map.mp hv
  obtain ⟨p, _, hpv⟩ := List.mem_map.mp hu
  rw [← huv, ← hpv]
  exact abs_dctF_le cosPi ch w h hcos (by norm_num) hch hw1 hh1 p.1 p.2

theorem encodeChannel_ac_mem_bounds (cosPi : ℚ → ℚ) (ch : List ℚ) (w h n : ℕ) :
    ∀ f ∈ (encodeChannel cosPi ch w h n).2.1, 0 ≤ f ∧ f ≤ 1 := by
  intro f hf
  rw [encodeChannel_ac] at hf
  by_cases hz : specScale cosPi ch w h n = 0
  · rw [if_neg (by simp [hz])] at hf
    have h1 : |f| ≤ specScale cosPi ch w h n :=
      foldl_max_mem _ _ (List.mem_map_of_mem abs hf)
    rw [hz] at h1
    have : f = 0 := abs_nonpos_iff.mp h1
    rw [this]
    norm_num
  · rw [if_pos hz] at hf
    obtain ⟨v, hv, hvf⟩ := List.mem_map.mp hf
    have hle : |v| ≤ specScale cosPi ch w h n :=
      foldl_max_mem _ _ (List.mem_map_of_mem abs hv)
    have hpos : 0 < specScale cosPi ch w h n :=
      lt_of_le_of_ne (specScale_nonneg cosPi ch w h n) (Ne.symm hz)
    rw [← hvf]
    have habs : |0.5 / specScale cosPi ch w h n * v| ≤ 0.5 := by
      rw [abs_mul, abs_div, abs_of_pos hpos]
      rw [show |(0.5 : ℚ)| = 0.5 from by norm_num]
      rw [div_mul_eq_mul_div, div_le_iff hpos]
      nlinarith [abs_nonneg v]
    rw [abs_le] at habs
    constructor <;> linarith [habs.1, habs.2]

theorem int_lor_coe (a b : ℕ) : Int.lor ↑a ↑b = ((a ||| b : ℕ) : ℤ) := rfl

theorem int_land_coe (a b : ℕ) : Int.land ↑a ↑b = ((a &&& b : ℕ) : ℤ) := rfl

theorem int_shiftLeft_coe (a k : ℕ) : (↑a : ℤ) <<< ((k : ℕ) : ℤ) = ((a <<< k : ℕ) : ℤ) := by
  show (Nat.shiftLeft' false a k : ℤ) = ((a <<< k : ℕ) : ℤ)
  rw [Nat.shiftLeft'_false]

theorem or_shift_eq_add (x b k : ℕ) (hx : x < 2 ^ k) : x ||| b <<< k = x + 2 ^ k * b :=
  calc x ||| b <<< k = x ||| b * 2 ^ k := by rw [Nat.shiftLeft_eq]
    _ = b * 2 ^ k ||| x := Nat.lor_comm _ _
    _ = 2 ^ k * b ||| x := by rw [mul_comm b]
    _ = 2 ^ k * b + x := (Nat.mul_add_lt_is_or hx b).symm
    _ = x + 2 ^ k * b := by ring

theorem nat_header24 (a b c d : ℕ) (ha : a ≤ 63) (hb : b ≤ 63) (hc : c ≤ 63) (hd : d ≤ 31) :
    ((a ||| b <<< 6) ||| c <<< 12) ||| d <<< 18 = a + 64 * b + 4096 * c + 262144 * d := by
  rw [or_shift_eq_add a b 6 (by norm_num; omega)]
  rw [or_shift_eq_add _ c 12 (by norm_num; omega)]
  rw [or_shift_eq_add _ d 18 (by norm_num; omega)]
  norm_num

theorem nat_header16 (a b : ℕ) (ha : a ≤ 63) (hb : b ≤ 63) :
    (a <<< 3) ||| b <<< 9 = 8 * a + 512 * b := by
  rw [show a <<< 3 = 8 * a from by rw [Nat.shiftLeft_eq]; ring]
  rw [or_shift_eq_add _ b 9 (by norm_num; omega)]
  norm_num

/-! ### Header field ranges and packed header values -/

/-- The packed 24-bit header word, written as the weighted sum of its fields
    (`l_dc6` at bit 0, `p_dc6` at bit 6, `q_dc6` at bit 12, `l_scale5` at
    bit 18), per the spec's layout. -/
def h24N (cosPi : ℚ → ℚ) (termsL termsC w h : ℕ) (rgba : List ℕ) : ℕ :=
  (jsRound (63 * (encodeChannel cosPi (lList w h rgba) w h termsL).1)).toNat
    + 64 * (jsRound (31.5 + 31.5 * (encodeChannel cosPi (pList w h rgba) w h termsC).1)).toNat
    + 4096 * (jsRound (31.5 + 31.5 * (encodeChannel cosPi (qList w h rgba) w h termsC).1)).toNat
    + 262144 * (jsRound (31 * (encodeChannel cosPi (lList w h rgba) w h termsL).2.2)).toNat

/-- The packed 16-bit header word (`p_scale6` at bit 3, `q_scale6` at bit 9). -/
def h16N (cosPi : ℚ → ℚ) (termsC w h : ℕ) (rgba : List ℕ) : ℕ :=
  8 * (jsRound (63 * (encodeChannel cosPi (pList w h rgba) w h termsC).2.2)).toNat
    + 512 * (jsRound (63 * (encodeChannel cosPi (qList w h rgba) w h termsC).2.2)).toNat

theorem ldc_range (cosPi : ℚ → ℚ) (termsL w h : ℕ) (rgba : List ℕ)
    (hcos : ∀ t, |cosPi t| ≤ 1) (hw1 : 1 ≤ w) (hh1 : 1 ≤ h)
    (hval : ∀ v ∈ rgba, v ≤ 255) (htL1 : 1 ≤ termsL) (htL10 : termsL ≤ 10) :
    0 ≤ (encodeChannel cosPi (lList w h rgba) w h termsL).1 ∧
      (encodeChannel cosPi (lList w h rgba) w h termsL).1 ≤ 1 := by
  have hwh : 1 ≤ w * h := Nat.mul_pos hw1 hh1
  rw [encodeChannel_dc cosPi _ w h termsL htL1 htL10]
  constructor
  · exact dctF_00_nonneg cosPi _ w h fun i => (lList_getD_bounds w h rgba hwh hval i).1
  · refine le_trans (le_abs_self _) ?_
    refine abs_dctF_le cosPi _ w h hcos (by norm_num) (fun i => ?_) hw1 hh1 0 0
    have := lList_getD_bounds w h rgba hwh hval i
    rw [abs_le]
    exact ⟨by linarith [this.1], this.2⟩

theorem pdc_abs (cosPi : ℚ → ℚ) (termsC w h : ℕ) (rgba : List ℕ)
    (hcos : ∀ t, |cosPi t| ≤ 1) (hw1 : 1 ≤ w) (hh1 : 1 ≤ h)
    (hval : ∀ v ∈ rgba, v ≤ 255) (htC1 : 1 ≤ termsC) (htC10 : termsC ≤ 10) :
    |(encodeChannel cosPi (pList w h rgba) w h termsC).1| ≤ 1 := by
  have hwh : 1 ≤ w * h := Nat.mul_pos hw1 hh1
  rw [encodeChannel_dc cosPi _ w h termsC htC1 htC10]
  exact abs_dctF_le cosPi _ w h hcos (by norm_num)
    (fun i => pList_getD_abs w h rgba hwh hval i) hw1 hh1 0 0

theorem qdc_abs (cosPi : ℚ → ℚ) (termsC w h : ℕ) (rgba : List ℕ)
    (hcos : ∀ t, |cosPi t| ≤ 1) (hw1 : 1 ≤ w) (hh1 : 1 ≤ h)
    (hval : ∀ v ∈ rgba, v ≤ 255) (htC1 : 1 ≤ termsC) (htC10 : termsC ≤ 10) :
    |(encodeChannel cosPi (qList w h rgba) w h termsC).1| ≤ 1 := by
  have hwh : 1 ≤ w * h := Nat.mul_pos hw1 hh1
  rw [encodeChannel_dc cosPi _ w h termsC htC1 htC10]
  exact abs_dctF_le cosPi _ w h hcos (by norm_num)
    (fun i => qList_getD_abs w h rgba hwh hval i) hw1 hh1 0 0

theorem lscale_range (cosPi : ℚ → ℚ) (termsL w h : ℕ) (rgba : List ℕ)
    (hcos : ∀ t, |cosPi t| ≤ 1) (hw1 : 1 ≤ w) (hh1 : 1 ≤ h)
    (hval : ∀ v ∈ rgba, v ≤ 255) :
    0 ≤ (encodeChannel cosPi (lList w h rgba) w h termsL).2.2 ∧
      (encodeChannel cosPi (lList w h rgba) w h termsL).2.2 ≤ 1 := by
  have hwh : 1 ≤ w * h := Nat.mul_pos hw1 hh1
  rw [encodeChannel_scale]
  refine ⟨specScale_nonneg _ _ _ _ _, ?_⟩
  refine specScale_le_one cosPi _ w h termsL hcos (fun i => ?_) hw1 hh1
  have := lList_getD_bounds w h rgba hwh hval i
  rw [abs_le]
  exact ⟨by linarith [this.1], this.2⟩

theorem pscale_range (cosPi : ℚ → ℚ) (termsC w h : ℕ) (rgba : List ℕ)
    (hcos : ∀ t, |cosPi t| ≤ 1) (hw1 : 1 ≤ w) (hh1 : 1 ≤ h)
    (hval : ∀ v ∈ rgba, v ≤ 255) :
    0 ≤ (encodeChannel cosPi (pList w h rgba) w h termsC).2.2 ∧
      (encodeChannel cosPi (pList w h rgba) w h termsC).2.2 ≤ 1 := by
  have hwh : 1 ≤ w * h := Nat.mul_pos hw1 hh1
  rw [encodeChannel_scale]
  exact ⟨specScale_nonneg _ _ _ _ _,
    specScale_le_one cosPi _ w h termsC hcos
      (fun i => pList_getD_abs w h rgba hwh hval i) hw1 hh1⟩

theorem qscale_range (cosPi : ℚ → ℚ) (termsC w h : ℕ) (rgba : List ℕ)
    (hcos : ∀ t, |cosPi t| ≤ 1) (hw1 : 1 ≤ w) (hh1 : 1 ≤ h)
    (hval : ∀ v ∈ rgba, v ≤ 255) :
    0 ≤ (encodeChannel cosPi (qList w h rgba) w h termsC).2.2 ∧
      (encodeChannel cosPi (qList w h rgba) w h termsC).2.2 ≤ 1 := by
  have hwh : 1 ≤ w * h := Nat.mul_pos hw1 hh1
  rw [encodeChannel_scale]
  exact ⟨specScale_nonneg _ _ _ _ _,
    specScale_le_one cosPi _ w h termsC hcos
      (fun i => qList_getD_abs w h rgba hwh hval i) hw1 hh1⟩

theorem header24_coe (cosPi : ℚ → ℚ) (termsL termsC w h : ℕ) (rgba : List ℕ)
    (hcos : ∀ t, |cosPi t| ≤ 1) (hw1 : 1 ≤ w) (hh1 : 1 ≤ h)
    (hval : ∀ v ∈ rgba, v ≤ 255)
    (htL1 : 1 ≤ termsL) (htL10 : termsL ≤ 10) (htC1 : 1 ≤ termsC) (htC10 : termsC ≤ 10) :
    header24 (encodeChannel cosPi (lList w h rgba) w h termsL).1
        (encodeChannel cosPi (pList w h rgba) w h termsC).1
        (encodeChannel cosPi (qList w h rgba) w h termsC).1
        (encodeChannel cosPi (lList w h rgba) w h termsL).2.2
      = ((h24N cosPi termsL termsC w h rgba : ℕ) : ℤ) ∧
    h24N cosPi termsL termsC w h rgba < 2 ^ 23 := by
  obtain ⟨hl0, hl1⟩ := ldc_range cosPi termsL w h rgba hcos hw1 hh1 hval htL1 htL10
  have hp := pdc_abs cosPi termsC w h rgba hcos hw1 hh1 hval htC1 htC10
  have hq := qdc_abs cosPi termsC w h rgba hcos hw1 hh1 hval htC1 htC10
  obtain ⟨hs0, hs1⟩ := lscale_range cosPi termsL w h rgba hcos hw1 hh1 hval
  rw [abs_le] at hp hq
  obtain ⟨ha0, ha63⟩ := jsRound_mem (x := 63 * (encodeChannel cosPi (lList w h rgba) w h termsL).1)
    (m := 63) (by linarith) (by push_cast; linarith)
  obtain ⟨hb0, hb63⟩ := jsRound_mem
    (x := 31.5 + 31.5 * (encodeChannel cosPi (pList w h rgba) w h termsC).1)
    (m := 63) (by linarith [hp.1]) (by push_cast; linarith [hp.2])
  obtain ⟨hc0, hc63⟩ := jsRound_mem
    (x := 31.5 + 31.5 * (encodeChannel cosPi (qList w h rgba) w h termsC).1)
    (m := 63) (by linarith [hq.1]) (by push_cast; linarith [hq.2])
  obtain ⟨hd0, hd31⟩ := jsRound_mem
    (x := 31 * (encodeChannel cosPi (lList w h rgba) w h termsL).2.2)
    (m := 31) (by linarith) (by push_cast; linarith)
  set za := jsRound (63 * (encodeChannel cosPi (lList w h rgba) w h termsL).1) with hza
  set zb := jsRound (31.5 + 31.5 * (encodeChannel cosPi (pList w h rgba) w h termsC).1) with hzb
  set zc := jsRound (31.5 + 31.5 * (encodeChannel cosPi (qList w h rgba) w h termsC).1) with hzc
  set zd := jsRound (31 * (encodeChannel cosPi (lList w h rgba) w h termsL).2.2) with hzd
  have hna : za = (za.toNat : ℤ) := (Int.toNat_of_nonneg ha0).symm
  have hnb : zb = (zb.toNat : ℤ) := (Int.toNat_of_nonneg hb0).symm
  have hnc : zc = (zc.toNat : ℤ) := (Int.toNat_of_nonneg hc0).symm
  have hnd : zd = (zd.toNat : ℤ) := (Int.toNat_of_nonneg hd0).symm
  have hA : za.toNat ≤ 63 := by omega
  have hB : zb.toNat ≤ 63 := by omega
  have hC : zc.toNat ≤ 63 := by omega
  have hD : zd.toNat ≤ 31 := by omega
  constructor
  · unfold header24
    rw [← hza, ← hzb, ← hzc, ← hzd, hna, hnb, hnc, hnd]
    have e1 : ((zb.toNat : ℤ)) <<< (6 : ℤ) = ((zb.toNat <<< 6 : ℕ) : ℤ) :=
      int_shiftLeft_coe zb.toNat 6
    have e2 : ((zc.toNat : ℤ)) <<< (12 : ℤ) = ((zc.toNat <<< 12 : ℕ) : ℤ) :=
      int_shiftLeft_coe zc.toNat 12
    have e3 : ((zd.toNat : ℤ)) <<< (18 : ℤ) = ((zd.toNat <<< 18 : ℕ) : ℤ) :=
      int_shiftLeft_coe zd.toNat 18
    rw [e1, e2, e3, int_lor_coe, int_lor_coe, int_lor_coe]
    rw [nat_header24 za.toNat zb.toNat zc.toNat zd.toNat hA hB hC hD]
    unfold h24N
    rw [← hza, ← hzb, ← hzc, ← hzd]
  · unfold h24N
    rw [← hza, ← hzb, ← hzc, ← hzd]
    omega

theorem header16_coe (cosPi : ℚ → ℚ) (termsC w h : ℕ) (rgba : List ℕ)
    (hcos : ∀ t, |cosPi t| ≤ 1) (hw1 : 1 ≤ w) (hh1 : 1 ≤ h)
    (hval : ∀ v ∈ rgba, v ≤ 255) :
    header16 (encodeChannel cosPi (pList w h rgba) w h termsC).2.2
        (encodeChannel cosPi (qList w h rgba) w h termsC).2.2
      = ((h16N cosPi termsC w h rgba : ℕ) : ℤ) ∧
    h16N cosPi termsC w h rgba < 2 ^ 15 := by
  obtain ⟨hp0, hp1⟩ := pscale_range cosPi termsC w h rgba hcos hw1 hh1 hval
  obtain ⟨hq0, hq1⟩ := qscale_range cosPi termsC w h rgba hcos hw1 hh1 hval
  obtain ⟨ha0, ha63⟩ := jsRound_mem
    (x := 63 * (encodeChannel cosPi (pList w h rgba) w h termsC).2.2)
    (m := 63) (by linarith) (by push_cast; linarith)
  obtain ⟨hb0, hb63⟩ := jsRound_mem
    (x := 63 * (encodeChannel cosPi (qList w h rgba) w h termsC).2.2)
    (m := 63) (by linarith) (by push_cast; linarith)
  set za := jsRound (63 * (encodeChannel cosPi (pList w h rgba) w h termsC).2.2) with hza
  set zb := jsRound (63 * (encodeChannel cosPi (qList w h rgba) w h termsC).2.2) with hzb
  have hna : za = (za.toNat : ℤ) := (Int.toNat_of_nonneg ha0).symm
  have hnb : zb = (zb.toNat : ℤ) := (Int.toNat_of_nonneg hb0).symm
  have hA : za.toNat ≤ 63 := by omega
  have hB : zb.toNat ≤ 63 := by omega
  constructor
  · unfold header16
    rw [← hza, ← hzb, hna, hnb]
    have e1 : ((za.toNat : ℤ)) <<< (3 : ℤ) = ((za.toNat <<< 3 : ℕ) : ℤ) :=
      int_shiftLeft_coe za.toNat 3
    have e2 : ((zb.toNat : ℤ)) <<< (9 : ℤ) = ((zb.toNat <<< 9 : ℕ) : ℤ) :=
      int_shiftLeft_coe zb.toNat 9
    rw [e1, e2, int_lor_coe]
    rw [nat_header16 za.toNat zb.toNat hA hB]
    unfold h16N
    rw [← hza, ← hzb]
  · unfold h16N
    rw [← hza, ← hzb]
    omega

/-! ### Byte-level layout of the emitted hash (claims C3, C9, C10) -/

/-- Nibble pairing per the spec: low nibble first, `lo + 16 * hi` per byte. -/
def packNibblesSpec : List ℕ → List ℕ
  | [] => []
  | [a] => [a]
  | a :: b :: rest => (a + 16 * b) :: packNibblesSpec rest

/-- `round(15 * f)` clamped to `[0, 15]`, per the spec wording. -/
def clamp15 (z : ℤ) : ℕ := (max 0 (min 15 z)).toNat

theorem nat_and_255 (k : ℕ) : k &&& 255 = k % 256 := by
  rw [show (255 : ℕ) = 2 ^ 8 - 1 from rfl, Nat.and_pow_two_sub_one_eq_mod]

theorem toUint8_coe (k : ℕ) : toUint8 ↑k = k % 256 := by
  unfold toUint8
  omega

theorem headerHash_bytes (N M : ℕ) (hN : N < 2 ^ 24) (hM : M < 2 ^ 16) :
    (headerHash ↑N ↑M).map toUint8
      = [N % 256, N / 256 % 256, N / 65536, M % 256, M / 256] := by
  have hN' : N < 16777216 := by omega
  have hM' : M < 65536 := by omega
  have b0 : toUint8 (Int.land ↑N 255) = N % 256 := by
    have r : Int.land (↑N) (255 : ℤ) = ((N &&& 255 : ℕ) : ℤ) := int_land_coe N 255
    rw [r, toUint8_coe, nat_and_255]
    omega
  have b1 : toUint8 (Int.land ((↑N : ℤ) >>> (8 : ℤ)) 255) = N / 256 % 256 := by
    have r1 : (↑N : ℤ) >>> (8 : ℤ) = ((N >>> 8 : ℕ) : ℤ) := Int.shiftRight_coe_nat N 8
    have r2 : Int.land ((N >>> 8 : ℕ) : ℤ) (255 : ℤ) = (((N >>> 8) &&& 255 : ℕ) : ℤ) :=
      int_land_coe _ 255
    rw [r1, r2, toUint8_coe, nat_and_255, Nat.shiftRight_eq_div_pow,
      show (2 : ℕ) ^ 8 = 256 from rfl]
    omega
  have b2 : toUint8 ((↑N : ℤ) >>> (16 : ℤ)) = N / 65536 := by
    have r1 : (↑N : ℤ) >>> (16 : ℤ) = ((N >>> 16 : ℕ) : ℤ) := Int.shiftRight_coe_nat N 16
    rw [r1, toUint8_coe, Nat.shiftRight_eq_div_pow, show (2 : ℕ) ^ 16 = 65536 from rfl]
    omega
  have b3 : toUint8 (Int.land ↑M 255) = M % 256 := by
    have r : Int.land (↑M) (255 : ℤ) = ((M &&& 255 : ℕ) : ℤ) := int_land_coe M 255
    rw [r, toUint8_coe, nat_and_255]
    omega
  have b4 : toUint8 ((↑M : ℤ) >>> (8 : ℤ)) = M / 256 := by
    have r1 : (↑M : ℤ) >>> (8 : ℤ) = ((M >>> 8 : ℕ) : ℤ) := Int.shiftRight_coe_nat M 8
    rw [r1, toUint8_coe, Nat.shiftRight_eq_div_pow, show (2 : ℕ) ^ 8 = 256 from rfl]
    omega
  simp only [headerHash, List.map_cons, List.map_nil, b0, b1, b2, b3, b4]

theorem clamp15_eq_toNat {z : ℤ} (h0 : 0 ≤ z) (h15 : z ≤ 15) : clamp15 z = z.toNat := by
  unfold clamp15
  omega

theorem lor_nibble_coe {a b : ℤ} (ha0 : 0 ≤ a) (ha15 : a ≤ 15) (hb0 : 0 ≤ b) (hb15 : b ≤ 15) :
    Int.lor a (b <<< (4 : ℤ)) = ((a.toNat + 16 * b.toNat : ℕ) : ℤ) := by
  have hna : a = (a.toNat : ℤ) := (Int.toNat_of_nonneg ha0).symm
  have hnb : b = (b.toNat : ℤ) := (Int.toNat_of_nonneg hb0).symm
  rw [hna, hnb]
  have e1 : ((b.toNat : ℤ)) <<< (4 : ℤ) = ((b.toNat <<< 4 : ℕ) : ℤ) :=
    int_shiftLeft_coe b.toNat 4
  rw [e1, int_lor_coe, or_shift_eq_add a.toNat b.toNat 4 (by omega)]
  norm_num

theorem packNibbles_toUint8 : ∀ zs : List ℤ, (∀ z ∈ zs, 0 ≤ z ∧ z ≤ 15) →
    (packNibbles zs).map toUint8 = packNibblesSpec (zs.map Int.toNat) := by
  refine twoStepInduction ?_ ?_ ?_
  · intro _; rfl
  · intro a hz
    obtain ⟨h0, h15⟩ := hz a (by simp)
    simp only [packNibbles, packNibblesSpec, List.map_cons, List.map_nil]
    unfold toUint8
    congr 1
    omega
  · intro a b l ih hz
    obtain ⟨ha0, ha15⟩ := hz a (by simp)
    obtain ⟨hb0, hb15⟩ := hz b (by simp)
    simp only [packNibbles, packNibblesSpec, List.map_cons]
    congr 1
    · rw [lor_nibble_coe ha0 ha15 hb0 hb15, toUint8_coe]
      omega
    · exact ih fun z hzm => hz z (by simp [hzm])

theorem packNibbles_mem_bounds : ∀ zs : List ℤ, (∀ z ∈ zs, 0 ≤ z ∧ z ≤ 15) →
    ∀ b ∈ packNibbles zs, 0 ≤ b ∧ b ≤ 255 := by
  refine twoStepInduction ?_ ?_ ?_
  · intro _ b hb; simp [packNibbles] at hb
  · intro a hz b hb
    obtain ⟨h0, h15⟩ := hz a (by simp)
    simp only [packNibbles, List.mem_singleton] at hb
    subst hb
    exact ⟨h0, by omega⟩
  · intro a c l ih hz b hb
    obtain ⟨ha0, ha15⟩ := hz a (by simp)
    obtain ⟨hc0, hc15⟩ := hz c (by simp)
    simp only [packNibbles, List.mem_cons] at hb
    rcases hb with hb | hb
    · subst hb
      rw [lor_nibble_coe ha0 ha15 hc0 hc15]
      constructor
      · exact Int.natCast_nonneg _
      · exact_mod_cast (by omega : a.toNat + 16 * c.toNat ≤ 255)
    · exact ih (fun z hzm => hz z (by simp [hzm])) b hb

theorem headerHash_mem_bounds (N M : ℕ) (hN : N < 2 ^ 24) (hM : M < 2 ^ 16) :
    ∀ z ∈ headerHash ↑N ↑M, 0 ≤ z ∧ z ≤ 255 := by
  have r0 : Int.land (↑N) (255 : ℤ) = ((N &&& 255 : ℕ) : ℤ) := int_land_coe N 255
  have r1 : (↑N : ℤ) >>> (8 : ℤ) = ((N >>> 8 : ℕ) : ℤ) := Int.shiftRight_coe_nat N 8
  have r3 : (↑N : ℤ) >>> (16 : ℤ) = ((N >>> 16 : ℕ) : ℤ) := Int.shiftRight_coe_nat N 16
  have r4 : Int.land (↑M) (255 : ℤ) = ((M &&& 255 : ℕ) : ℤ) := int_land_coe M 255
  have r5 : (↑M : ℤ) >>> (8 : ℤ) = ((M >>> 8 : ℕ) : ℤ) := Int.shiftRight_coe_nat M 8
  intro z hz
  simp only [headerHash, List.mem_cons, List.not_mem_nil, or_false] at hz
  rcases hz with hb | hb | hb | hb | hb <;> subst hb
  · rw [r0]
    refine ⟨Int.natCast_nonneg _, ?_⟩
    exact_mod_cast (by rw [nat_and_255]; omega : N &&& 255 ≤ 255)
  · rw [r1]
    have r2 : Int.land ((N >>> 8 : ℕ) : ℤ) (255 : ℤ) = (((N >>> 8) &&& 255 : ℕ) : ℤ) :=
      int_land_coe _ 255
    rw [r2]
    refine ⟨Int.natCast_nonneg _, ?_⟩
    exact_mod_cast (by rw [nat_and_255]; omega : (N >>> 8) &&& 255 ≤ 255)
  · rw [r3]
    refine ⟨Int.natCast_nonneg _, ?_⟩
    exact_mod_cast (by rw [Nat.shiftRight_eq_div_pow]; omega : N >>> 16 ≤ 255)
  · rw [r4]
    refine ⟨Int.natCast_nonneg _, ?_⟩
    exact_mod_cast (by rw [nat_and_255]; omega : M &&& 255 ≤ 255)
  · rw [r5]
    refine ⟨Int.natCast_nonneg _, ?_⟩
    exact_mod_cast (by rw [Nat.shiftRight_eq_div_pow]; omega : M >>> 8 ≤ 255)

/-- All the encoder's (normalized) AC quantization values lie in `[0, 15]`. -/
theorem acQuant_bounds (cosPi : ℚ → ℚ) (termsL termsC w h : ℕ) (rgba : List ℕ) :
    ∀ z ∈ ((encodeChannel cosPi (lList w h rgba) w h termsL).2.1
        ++ (encodeChannel cosPi (pList w h rgba) w h termsC).2.1
        ++ (encodeChannel cosPi (qList w h rgba) w h termsC).2.1).map
          (fun f => jsRound (15 * f)), 0 ≤ z ∧ z ≤ 15 := by
  intro z hzm
  obtain ⟨f, hf, hfz⟩ := List.mem_map.mp hzm
  have hb : 0 ≤ f ∧ f ≤ 1 := by
    rcases List.mem_append.mp hf with hf' | hq
    · rcases List.mem_append.mp hf' with hl | hp
      · exact encodeChannel_ac_mem_bounds cosPi _ w h termsL f hl
      · exact encodeChannel_ac_mem_bounds cosPi _ w h termsC f hp
    · exact encodeChannel_ac_mem_bounds cosPi _ w h termsC f hq
  rw [← hfz]
  exact jsRound_mem (m := 15) (by linarith [hb.1]) (by push_cast; linarith [hb.2])

/-- Claim C3: the first 5 bytes of the hash are the little-endian-per-field
    emission of the packed 24-bit and 16-bit header words (fields `l_dc6` at
    bit 0, `p_dc6` at bit 6, `q_dc6` at bit 12, `l_scale5` at bit 18;
    `p_scale6` at bit 3, `q_scale6` at bit 9), and the remaining bytes are the
    AC terms of L then P then Q in enumeration order, quantized as
    `round(15 * f)` clamped to `[0, 15]`, two nibbles per byte low first. -/
theorem c3_byte_layout (cosPi : ℚ → ℚ) (termsL termsC w h : ℕ) (rgba : List ℕ)
    (hcos : ∀ t, |cosPi t| ≤ 1)
    (hw1 : 1 ≤ w) (hw100 : w ≤ 100) (hh1 : 1 ≤ h) (hh100 : h ≤ 100)
    (hlen : rgba.length = w * h * 4) (hval : ∀ v ∈ rgba, v ≤ 255)
    (htL1 : 1 ≤ termsL) (htL10 : termsL ≤ 10) (htC1 : 1 ≤ termsC) (htC10 : termsC ≤ 10) :
    rgbaToThumbHash cosPi termsL termsC w h rgba = some
      ([h24N cosPi termsL termsC w h rgba % 256,
        h24N cosPi termsL termsC w h rgba / 256 % 256,
        h24N cosPi termsL termsC w h rgba / 65536,
        h16N cosPi termsC w h rgba % 256,
        h16N cosPi termsC w h rgba / 256]
        ++ packNibblesSpec
            (((encodeChannel cosPi (lList w h rgba) w h termsL).2.1
                ++ (encodeChannel cosPi (pList w h rgba) w h termsC).2.1
                ++ (encodeChannel cosPi (qList w h rgba) w h termsC).2.1).map
              fun f => clamp15 (jsRound (15 * f)))) := by
  rw [encode_eq_pack cosPi termsL termsC w h rgba hw100 hh100]
  congr 1
  rw [List.map_append]
  obtain ⟨h24eq, h24lt⟩ :=
    header24_coe cosPi termsL termsC w h rgba hcos hw1 hh1 hval htL1 htL10 htC1 htC10
  obtain ⟨h16eq, h16lt⟩ := header16_coe cosPi termsC w h rgba hcos hw1 hh1 hval
  congr 1
  · rw [h24eq, h16eq]
    exact headerHash_bytes _ _ (by omega) (by omega)
  · rw [packNibbles_toUint8 _ (acQuant_bounds cosPi termsL termsC w h rgba)]
    rw [List.map_map]
    refine congrArg packNibblesSpec (List.map_congr_left fun f hf => ?_)
    have hz := acQuant_bounds cosPi termsL termsC w h rgba (jsRound (15 * f))
      (List.mem_map_of_mem _ hf)
    exact (clamp15_eq_toNat hz.1 hz.2).symm

/-- Claim C3 witness at a concrete input. -/
theorem c3_byte_layout_witness :
    ((∀ t : ℚ, |(fun _ : ℚ => (1 : ℚ)) t| ≤ 1) ∧ 1 ≤ 1 ∧ 1 ≤ 100 ∧
      ([0, 0, 0, 0] : List ℕ).length = 1 * 1 * 4 ∧
      (∀ v ∈ ([0, 0, 0, 0] : List ℕ), v ≤ 255) ∧ 1 ≤ 4 ∧ 4 ≤ 10 ∧ 1 ≤ 3 ∧ 3 ≤ 10) ∧
    rgbaToThumbHash (fun _ => 1) 4 3 1 1 [0, 0, 0, 0] = some
      ([h24N (fun _ => 1) 4 3 1 1 [0, 0, 0, 0] % 256,
        h24N (fun _ => 1) 4 3 1 1 [0, 0, 0, 0] / 256 % 256,
        h24N (fun _ => 1) 4 3 1 1 [0, 0, 0, 0] / 65536,
        h16N (fun _ => 1) 3 1 1 [0, 0, 0, 0] % 256,
        h16N (fun _ => 1) 3 1 1 [0, 0, 0, 0] / 256]
        ++ packNibblesSpec
            (((encodeChannel (fun _ => 1) (lList 1 1 [0, 0, 0, 0]) 1 1 4).2.1
                ++ (encodeChannel (fun _ => 1) (pList 1 1 [0, 0, 0, 0]) 1 1 3).2.1
                ++ (encodeChannel (fun _ => 1) (qList 1 1 [0, 0, 0, 0]) 1 1 3).2.1).map
              fun f => clamp15 (jsRound (15 * f)))) :=
  ⟨⟨fun t => by norm_num, le_refl 1, by decide, by decide, by decide, by decide, by decide,
      by decide, by decide⟩,
    c3_byte_layout (fun _ => 1) 4 3 1 1 [0, 0, 0, 0] (fun t => by norm_num)
      (by decide) (by decide) (by decide) (by decide) (by decide) (by decide)
      (by decide) (by decide) (by decide) (by decide)⟩

/-! ### Claim C10: range safety of the whole encode pipeline -/

/-- Claim C10: for valid input (samples in `[0, 255]`, bounded cosine), the LPQ
    channels satisfy `l ∈ [0, 1]`, `p, q ∈ [-1, 1]`; every DC coefficient and
    scale is bounded by 1 in absolute value; every quantized header field fits
    its declared bit width and every AC nibble is in `[0, 15]`; the bitwise-OR
    packing of the header equals the overlap-free weighted sum of its fields;
    and every element of the hash array is an integer in `[0, 255]` (so the
    final `Uint8Array` conversion wraps nothing). -/
theorem c10_safety (cosPi : ℚ → ℚ) (termsL termsC w h : ℕ) (rgba : List ℕ)
    (hcos : ∀ t, |cosPi t| ≤ 1)
    (hw1 : 1 ≤ w) (hw100 : w ≤ 100) (hh1 : 1 ≤ h) (hh100 : h ≤ 100)
    (hlen : rgba.length = w * h * 4) (hval : ∀ v ∈ rgba, v ≤ 255)
    (htL1 : 1 ≤ termsL) (htL10 : termsL ≤ 10) (htC1 : 1 ≤ termsC) (htC10 : termsC ≤ 10) :
    (∀ i, 0 ≤ (lList w h rgba).getD i 0 ∧ (lList w h rgba).getD i 0 ≤ 1) ∧
    (∀ i, |(pList w h rgba).getD i 0| ≤ 1) ∧
    (∀ i, |(qList w h rgba).getD i 0| ≤ 1) ∧
    (|(encodeChannel cosPi (lList w h rgba) w h termsL).1| ≤ 1 ∧
      (encodeChannel cosPi (lList w h rgba) w h termsL).2.2 ≤ 1) ∧
    (|(encodeChannel cosPi (pList w h rgba) w h termsC).1| ≤ 1 ∧
      (encodeChannel cosPi (pList w h rgba) w h termsC).2.2 ≤ 1) ∧
    (|(encodeChannel cosPi (qList w h rgba) w h termsC).1| ≤ 1 ∧
      (encodeChannel cosPi (qList w h rgba) w h termsC).2.2 ≤ 1) ∧
    (0 ≤ jsRound (63 * (encodeChannel cosPi (lList w h rgba) w h termsL).1) ∧
      jsRound (63 * (encodeChannel cosPi (lList w h rgba) w h termsL).1) ≤ 63) ∧
    (0 ≤ jsRound (31.5 + 31.5 * (encodeChannel cosPi (pList w h rgba) w h termsC).1) ∧
      jsRound (31.5 + 31.5 * (encodeChannel cosPi (pList w h rgba) w h termsC).1) ≤ 63) ∧
    (0 ≤ jsRound (31.5 + 31.5 * (encodeChannel cosPi (qList w h rgba) w h termsC).1) ∧
      jsRound (31.5 + 31.5 * (encodeChannel cosPi (qList w h rgba) w h termsC).1) ≤ 63) ∧
    (0 ≤ jsRound (31 * (encodeChannel cosPi (lList w h rgba) w h termsL).2.2) ∧
      jsRound (31 * (encodeChannel cosPi (lList w h rgba) w h termsL).2.2) ≤ 31) ∧
    (0 ≤ jsRound (63 * (encodeChannel cosPi (pList w h rgba) w h termsC).2.2) ∧
      jsRound (63 * (encodeChannel cosPi (pList w h rgba) w h termsC).2.2) ≤ 63) ∧
    (0 ≤ jsRound (63 * (encodeChannel cosPi (qList w h rgba) w h termsC).2.2) ∧
      jsRound (63 * (encodeChannel cosPi (qList w h rgba) w h termsC).2.2) ≤ 63) ∧
    (∀ z ∈ ((encodeChannel cosPi (lList w h rgba) w h termsL).2.1
        ++ (encodeChannel cosPi (pList w h rgba) w h termsC).2.1
        ++ (encodeChannel cosPi (qList w h rgba) w h termsC).2.1).map
          (fun f => jsRound (15 * f)), 0 ≤ z ∧ z ≤ 15) ∧
    header24 (encodeChannel cosPi (lList w h rgba) w h termsL).1
        (encodeChannel cosPi (pList w h rgba) w h termsC).1
        (encodeChannel cosPi (qList w h rgba) w h termsC).1
        (encodeChannel cosPi (lList w h rgba) w h termsL).2.2
      = ((h24N cosPi termsL termsC w h rgba : ℕ) : ℤ) ∧
    header16 (encodeChannel cosPi (pList w h rgba) w h termsC).2.2
        (encodeChannel cosPi (qList w h rgba) w h termsC).2.2
      = ((h16N cosPi termsC w h rgba : ℕ) : ℤ) ∧
    (∀ z ∈ writeACLoop
        (headerHash
          (header24 (encodeChannel cosPi (lList w h rgba) w h termsL).1
            (encodeChannel cosPi (pList w h rgba) w h termsC).1
            (encodeChannel cosPi (qList w h rgba) w h termsC).1
            (encodeChannel cosPi (lList w h rgba) w h termsL).2.2)
          (header16 (encodeChannel cosPi (pList w h rgba) w h termsC).2.2
            (encodeChannel cosPi (qList w h rgba) w h termsC).2.2)) 0
        ((encodeChannel cosPi (lList w h rgba) w h termsL).2.1
          ++ (encodeChannel cosPi (pList w h rgba) w h termsC).2.1
          ++ (encodeChannel cosPi (qList w h rgba) w h termsC).2.1),
      0 ≤ z ∧ z ≤ 255) ∧
    (∀ b ∈ encOut cosPi termsL termsC w h rgba, b ≤ 255) := by
  have hwh : 1 ≤ w * h := Nat.mul_pos hw1 hh1
  obtain ⟨hl0, hl1⟩ := ldc_range cosPi termsL w h rgba hcos hw1 hh1 hval htL1 htL10
  have hpd := pdc_abs cosPi termsC w h rgba hcos hw1 hh1 hval htC1 htC10
  have hqd := qdc_abs cosPi termsC w h rgba hcos hw1 hh1 hval htC1 htC10
  obtain ⟨hls0, hls1⟩ := lscale_range cosPi termsL w h rgba hcos hw1 hh1 hval
  obtain ⟨hps0, hps1⟩ := pscale_range cosPi termsC w h rgba hcos hw1 hh1 hval
  obtain ⟨hqs0, hqs1⟩ := qscale_range cosPi termsC w h rgba hcos hw1 hh1 hval
  obtain ⟨h24eq, h24lt⟩ :=
    header24_coe cosPi termsL termsC w h rgba hcos hw1 hh1 hval htL1 htL10 htC1 htC10
  obtain ⟨h16eq, h16lt⟩ := header16_coe cosPi termsC w h rgba hcos hw1 hh1 hval
  have hpd' := abs_le.mp hpd
  have hqd' := abs_le.mp hqd
  have hbytes : ∀ z ∈ writeACLoop
      (headerHash
        (header24 (encodeChannel cosPi (lList w h rgba) w h termsL).1
          (encodeChannel cosPi (pList w h rgba) w h termsC).1
          (encodeChannel cosPi (qList w h rgba) w h termsC).1
          (encodeChannel cosPi (lList w h rgba) w h termsL).2.2)
        (header16 (encodeChannel cosPi (pList w h rgba) w h termsC).2.2
          (encodeChannel cosPi (qList w h rgba) w h termsC).2.2)) 0
      ((encodeChannel cosPi (lList w h rgba) w h termsL).2.1
        ++ (encodeChannel cosPi (pList w h rgba) w h termsC).2.1
        ++ (encodeChannel cosPi (qList w h rgba) w h termsC).2.1),
      0 ≤ z ∧ z ≤ 255 := by
    intro z hz
    rw [show (0 : ℕ) = 2 * 0 from rfl, writeACLoop_eq _ _ 0 (by simp [headerHash])] at hz
    rcases List.mem_append.mp hz with hh' | hp'
    · rw [h24eq, h16eq] at hh'
      exact headerHash_mem_bounds _ _ (by omega) (by omega) z hh'
    · exact packNibbles_mem_bounds _ (acQuant_bounds cosPi termsL termsC w h rgba) z hp'
  refine ⟨fun i => lList_getD_bounds w h rgba hwh hval i,
    fun i => pList_getD_abs w h rgba hwh hval i,
    fun i => qList_getD_abs w h rgba hwh hval i,
    ⟨abs_le.mpr ⟨by linarith, hl1⟩, hls1⟩, ⟨hpd, hps1⟩, ⟨hqd, hqs1⟩,
    jsRound_mem (by linarith) (by push_cast; linarith),
    jsRound_mem (by linarith [hpd'.1]) (by push_cast; linarith [hpd'.2]),
    jsRound_mem (by linarith [hqd'.1]) (by push_cast; linarith [hqd'.2]),
    jsRound_mem (by linarith) (by push_cast; linarith),
    jsRound_mem (by linarith) (by push_cast; linarith),
    jsRound_mem (by linarith) (by push_cast; linarith),
    acQuant_bounds cosPi termsL termsC w h rgba,
    h24eq, h16eq, hbytes, ?_⟩
  intro b hb
  unfold encOut at hb
  obtain ⟨z, hzmem, hzb⟩ := List.mem_map.mp hb
  obtain ⟨hz0, hz255⟩ := hbytes z hzmem
  rw [← hzb]
  unfold toUint8
  omega

/-- Claim C10 witness at a concrete input. -/
theorem c10_safety_witness :
    ((∀ t : ℚ, |(fun _ : ℚ => (1 : ℚ)) t| ≤ 1) ∧ 1 ≤ 1 ∧ 1 ≤ 100 ∧
      ([0, 0, 0, 0] : List ℕ).length = 1 * 1 * 4 ∧
      (∀ v ∈ ([0, 0, 0, 0] : List ℕ), v ≤ 255) ∧ 1 ≤ 4 ∧ 4 ≤ 10 ∧ 1 ≤ 3 ∧ 3 ≤ 10) ∧
    (∀ b ∈ encOut (fun _ => 1) 4 3 1 1 [0, 0, 0, 0], b ≤ 255) :=
  ⟨⟨fun t => by norm_num, le_refl 1, by decide, by decide, by decide, by decide, by decide,
      by decide, by decide⟩,
    (c10_safety (fun _ => 1) 4 3 1 1 [0, 0, 0, 0] (fun t => by norm_num)
      (by decide) (by decide) (by decide) (by decide) (by decide) (by decide)
      (by decide) (by decide) (by decide) (by decide)).2.2.2.2.2.2.2.2.2.2.2.2.2.2.2.2⟩

/-! ### Claim C9: the average-color alpha bit -/

theorem encOut_header5 (cosPi : ℚ → ℚ) (termsL termsC w h : ℕ) (rgba : List ℕ)
    (hcos : ∀ t, |cosPi t| ≤ 1)
    (hw1 : 1 ≤ w) (hh1 : 1 ≤ h) (hval : ∀ v ∈ rgba, v ≤ 255)
    (htL1 : 1 ≤ termsL) (htL10 : termsL ≤ 10) (htC1 : 1 ≤ termsC) (htC10 : termsC ≤ 10) :
    ∃ rest, encOut cosPi termsL termsC w h rgba
      = [h24N cosPi termsL termsC w h rgba % 256,
         h24N cosPi termsL termsC w h rgba / 256 % 256,
         h24N cosPi termsL termsC w h rgba / 65536,
         h16N cosPi termsC w h rgba % 256,
         h16N cosPi termsC w h rgba / 256] ++ rest := by
  obtain ⟨h24eq, h24lt⟩ :=
    header24_coe cosPi termsL termsC w h rgba hcos hw1 hh1 hval htL1 htL10 htC1 htC10
  obtain ⟨h16eq, h16lt⟩ := header16_coe cosPi termsC w h rgba hcos hw1 hh1 hval
  refine ⟨(packNibbles (((encodeChannel cosPi (lList w h rgba) w h termsL).2.1
      ++ (encodeChannel cosPi (pList w h rgba) w h termsC).2.1
      ++ (encodeChannel cosPi (qList w h rgba) w h termsC).2.1).map
        fun f => jsRound (15 * f))).map toUint8, ?_⟩
  have hloop : ∀ (pre : List ℤ) (fs : List ℚ), pre.length = 5 →
      writeACLoop pre 0 fs = pre ++ packNibbles (fs.map fun f => jsRound (15 * f)) := by
    intro pre fs hpre
    have := writeACLoop_eq fs pre 0 (by omega)
    simpa using this
  simp only [encOut]
  rw [hloop _ _ (by simp [headerHash]), List.map_append, h24eq, h16eq,
    headerHash_bytes _ _ (by omega) (by omega)]

theorem dHeader24_encOut (cosPi : ℚ → ℚ) (termsL termsC w h : ℕ) (rgba : List ℕ)
    (hcos : ∀ t, |cosPi t| ≤ 1)
    (hw1 : 1 ≤ w) (hh1 : 1 ≤ h) (hval : ∀ v ∈ rgba, v ≤ 255)
    (htL1 : 1 ≤ termsL) (htL10 : termsL ≤ 10) (htC1 : 1 ≤ termsC) (htC10 : termsC ≤ 10) :
    dHeader24 (encOut cosPi termsL termsC w h rgba) = h24N cosPi termsL termsC w h rgba := by
  obtain ⟨rest, hrest⟩ :=
    encOut_header5 cosPi termsL termsC w h rgba hcos hw1 hh1 hval htL1 htL10 htC1 htC10
  have hlt := (header24_coe cosPi termsL termsC w h rgba hcos hw1 hh1 hval
    htL1 htL10 htC1 htC10).2
  rw [hrest]
  unfold dHeader24
  simp only [List.cons_append, List.getD_cons_zero, List.getD_cons_succ]
  set N := h24N cosPi termsL termsC w h rgba
  rw [or_shift_eq_add _ _ 8 (by omega)]
  rw [or_shift_eq_add _ _ 16 (by norm_num; omega)]
  norm_num
  omega

/-- Claim C9: `thumbHashToAverageRGBA` reads the alpha presence flag from bit 23
    of the 24-bit header word, returning `(hash[5] & 15) / 15` when it is set
    and 1 otherwise; the encoder never sets bit 23, so on every encoded hash the
    extracted alpha is 1. -/
theorem c9_average_alpha (cosPi : ℚ → ℚ) (termsL termsC w h : ℕ) (rgba hash : List ℕ)
    (hcos : ∀ t, |cosPi t| ≤ 1)
    (hw1 : 1 ≤ w) (hw100 : w ≤ 100) (hh1 : 1 ≤ h) (hh100 : h ≤ 100)
    (hlen : rgba.length = w * h * 4) (hval : ∀ v ∈ rgba, v ≤ 255)
    (htL1 : 1 ≤ termsL) (htL10 : termsL ≤ 10) (htC1 : 1 ≤ termsC) (htC10 : termsC ≤ 10)
    (henc : rgbaToThumbHash cosPi termsL termsC w h rgba = some hash) :
    (∀ hash' : List ℕ, (thumbHashToAverageRGBA hash').2.2.2
        = if dHeader24 hash' >>> 23 ≠ 0
          then ((hash'.getD 5 0 &&& 15 : ℕ) : ℚ) / 15 else 1) ∧
    dHeader24 hash >>> 23 = 0 ∧
    (thumbHashToAverageRGBA hash).2.2.2 = 1 := by
  have hout : hash = encOut cosPi termsL termsC w h rgba := by
    have hs := rgbaToThumbHash_some cosPi termsL termsC w h rgba hw100 hh100
    rw [henc] at hs
    exact Option.some.inj hs
  have hbit : dHeader24 hash >>> 23 = 0 := by
    rw [hout, dHeader24_encOut cosPi termsL termsC w h rgba hcos hw1 hh1 hval
      htL1 htL10 htC1 htC10]
    have hlt := (header24_coe cosPi termsL termsC w h rgba hcos hw1 hh1 hval
      htL1 htL10 htC1 htC10).2
    rw [Nat.shiftRight_eq_div_pow]
    omega
  refine ⟨fun hash' => rfl, hbit, ?_⟩
  show (if dHeader24 hash >>> 23 ≠ 0 then ((hash.getD 5 0 &&& 15 : ℕ) : ℚ) / 15 else 1) = 1
  rw [if_neg (by simp [hbit])]

/-- Claim C9 witness at a concrete input. -/
theorem c9_average_alpha_witness :
    ((∀ t : ℚ, |(fun _ : ℚ => (1 : ℚ)) t| ≤ 1) ∧
      (∀ v ∈ ([0, 0, 0, 0] : List ℕ), v ≤ 255) ∧
      rgbaToThumbHash (fun _ => 1) 4 3 1 1 [0, 0, 0, 0]
        = some (encOut (fun _ => 1) 4 3 1 1 [0, 0, 0, 0])) ∧
    (dHeader24 (encOut (fun _ => 1) 4 3 1 1 [0, 0, 0, 0]) >>> 23 = 0 ∧
      (thumbHashToAverageRGBA (encOut (fun _ => 1) 4 3 1 1 [0, 0, 0, 0])).2.2.2 = 1) :=
  ⟨⟨fun t => by norm_num, by decide,
      rgbaToThumbHash_some (fun _ => 1) 4 3 1 1 [0, 0, 0, 0] (by decide) (by decide)⟩,
    (c9_average_alpha (fun _ => 1) 4 3 1 1 [0, 0, 0, 0]
        (encOut (fun _ => 1) 4 3 1 1 [0, 0, 0, 0]) (fun t => by norm_num)
        (by decide) (by decide) (by decide) (by decide) (by decide) (by decide)
        (by decide) (by decide) (by decide) (by decide)
        (rgbaToThumbHash_some (fun _ => 1) 4 3 1 1 [0, 0, 0, 0] (by decide) (by decide))).2⟩

/-! ### Claim C4: decode header unpacking and AC consumption -/

theorem and63_eq_mod (k : ℕ) : k &&& 63 = k % 64 := by
  rw [show (63 : ℕ) = 2 ^ 6 - 1 from rfl, Nat.and_pow_two_sub_one_eq_mod]

theorem and31_eq_mod (k : ℕ) : k &&& 31 = k % 32 := by
  rw [show (31 : ℕ) = 2 ^ 5 - 1 from rfl, Nat.and_pow_two_sub_one_eq_mod]

theorem dHeader24_sum (hash : List ℕ) (hb : ∀ v ∈ hash, v < 256) :
    dHeader24 hash = hash.getD 0 0 + 256 * hash.getD 1 0 + 65536 * hash.getD 2 0 := by
  have h0 : hash.getD 0 0 < 256 := by
    rcases getD_cases hash 0 0 with hd | hm
    · omega
    · exact hb _ hm
  have h1 : hash.getD 1 0 < 256 := by
    rcases getD_cases hash 0 1 with hd | hm
    · omega
    · exact hb _ hm
  unfold dHeader24
  rw [or_shift_eq_add _ _ 8 (by omega)]
  rw [or_shift_eq_add _ _ 16
    (by simp only [show (2 : ℕ) ^ 16 = 65536 from rfl, show (2 : ℕ) ^ 8 = 256 from rfl]; omega)]
  norm_num

theorem dHeader16_sum (hash : List ℕ) (hb : ∀ v ∈ hash, v < 256) :
    dHeader16 hash = hash.getD 3 0 + 256 * hash.getD 4 0 := by
  have h3 : hash.getD 3 0 < 256 := by
    rcases getD_cases hash 0 3 with hd | hm
    · omega
    · exact hb _ hm
  unfold dHeader16
  rw [or_shift_eq_add _ _ 8 (by omega)]
  norm_num

theorem decodeChannelAux_eq (hash : List ℕ) (scale : ℚ) :
    ∀ (L : List (ℕ × ℕ)) (k : ℕ),
      decodeChannelAux hash scale L k
        = (List.range L.length).map fun j => ((nibbleAt hash (k + j) : ℚ) / 7.5 - 1) * scale := by
  intro L
  induction L with
  | nil => intro k; rfl
  | cons p L ih =>
      intro k
      rw [show (p :: L).length = L.length + 1 from rfl, List.range_succ_eq_map,
        List.map_cons]
      simp only [decodeChannelAux]
      rw [ih (k + 1), List.map_map]
      refine congrArg₂ List.cons (by norm_num) ?_
      refine List.map_congr_left fun j _ => ?_
      have : k + (j + 1) = k + 1 + j := by omega
      simp [Function.comp, this]

theorem decIndices_length_eq (n : ℕ) (h1 : 1 ≤ n) (h10 : n ≤ 10) :
    (decIndices n).length = specAcCount n := by
  interval_cases n <;> decide

/-- Claim C4: decode recovers each header field with the inverse arithmetic of
    encode (modular extraction at the same bit positions, divided by the same
    constants, with the offset subtracted for `p_dc`/`q_dc`), and consumes AC
    nibbles low-nibble-first in enumeration order, L then P then Q, dequantizing
    with `(nibble / 7.5 - 1) * scale` where the chrominance channels use
    `p_scale * 1.25` / `q_scale * 1.25` and luminance uses `l_scale` as is. -/
theorem c4_decode_arith (termsL termsC : ℕ) (hash : List ℕ)
    (hb : ∀ v ∈ hash, v < 256)
    (htL1 : 1 ≤ termsL) (htL10 : termsL ≤ 10) (htC1 : 1 ≤ termsC) (htC10 : termsC ≤ 10) :
    dHeader24 hash = hash.getD 0 0 + 256 * hash.getD 1 0 + 65536 * hash.getD 2 0 ∧
    dHeader16 hash = hash.getD 3 0 + 256 * hash.getD 4 0 ∧
    d_l_dc hash = ((dHeader24 hash % 64 : ℕ) : ℚ) / 63 ∧
    d_p_dc hash = ((dHeader24 hash / 64 % 64 : ℕ) : ℚ) / 31.5 - 1 ∧
    d_q_dc hash = ((dHeader24 hash / 4096 % 64 : ℕ) : ℚ) / 31.5 - 1 ∧
    d_l_scale hash = ((dHeader24 hash / 262144 % 32 : ℕ) : ℚ) / 31 ∧
    d_p_scale hash = ((dHeader16 hash / 8 % 64 : ℕ) : ℚ) / 63 ∧
    d_q_scale hash = ((dHeader16 hash / 512 % 64 : ℕ) : ℚ) / 63 ∧
    d_l_ac termsL hash = (List.range (specAcCount termsL)).map
      (fun j => ((nibbleAt hash j : ℚ) / 7.5 - 1) * d_l_scale hash) ∧
    d_p_ac termsL termsC hash = (List.range (specAcCount termsC)).map
      (fun j => ((nibbleAt hash (specAcCount termsL + j) : ℚ) / 7.5 - 1)
        * (d_p_scale hash * 1.25)) ∧
    d_q_ac termsL termsC hash = (List.range (specAcCount termsC)).map
      (fun j => ((nibbleAt hash (specAcCount termsL + specAcCount termsC + j) : ℚ) / 7.5 - 1)
        * (d_q_scale hash * 1.25)) := by
  refine ⟨dHeader24_sum hash hb, dHeader16_sum hash hb, ?_, ?_, ?_, ?_, ?_, ?_, ?_, ?_, ?_⟩
  · unfold d_l_dc
    rw [and63_eq_mod]
  · unfold d_p_dc
    rw [Nat.shiftRight_eq_div_pow, and63_eq_mod, show (2 : ℕ) ^ 6 = 64 from rfl]
  · unfold d_q_dc
    rw [Nat.shiftRight_eq_div_pow, and63_eq_mod, show (2 : ℕ) ^ 12 = 4096 from rfl]
  · unfold d_l_scale
    rw [Nat.shiftRight_eq_div_pow, and31_eq_mod, show (2 : ℕ) ^ 18 = 262144 from rfl]
  · unfold d_p_scale
    rw [Nat.shiftRight_eq_div_pow, and63_eq_mod, show (2 : ℕ) ^ 3 = 8 from rfl]
  · unfold d_q_scale
    rw [Nat.shiftRight_eq_div_pow, and63_eq_mod, show (2 : ℕ) ^ 9 = 512 from rfl]
  · unfold d_l_ac
    rw [decodeChannelAux_eq, decIndices_length_eq termsL htL1 htL10]
    simp
  · unfold d_p_ac
    rw [decodeChannelAux_eq, decIndices_length_eq termsC htC1 htC10,
      decIndices_length_eq termsL htL1 htL10]
  · unfold d_q_ac
    rw [decodeChannelAux_eq, decIndices_length_eq termsC htC1 htC10,
      decIndices_length_eq termsL htL1 htL10]

/-- Claim C4 witness at a concrete input. -/
theorem c4_decode_arith_witness :
    ((∀ v ∈ ([0, 8, 2, 0, 0] : List ℕ), v < 256) ∧ 1 ≤ 1 ∧ 1 ≤ 10) ∧
    d_l_dc [0, 8, 2, 0, 0] = ((dHeader24 [0, 8, 2, 0, 0] % 64 : ℕ) : ℚ) / 63 :=
  ⟨⟨by decide, le_refl 1, by decide⟩,
    (c4_decode_arith 1 1 [0, 8, 2, 0, 0] (by decide) (by decide) (by decide) (by decide)
      (by decide)).2.2.1⟩

/-! ### Claim C7: PNG byte-stream layout -/

/-- Big-endian 32-bit emission, as the source writes every 4-byte field. -/
def be32 (n : ℕ) : List ℕ := [n >>> 24, (n >>> 16) &&& 255, (n >>> 8) &&& 255, n &&& 255]

/-- A PNG chunk: length, type, payload, and a CRC-32 covering exactly the type
    tag plus the payload (not the length field). -/
def pngChunk (t p : List ℕ) : List ℕ := be32 p.length ++ t ++ p ++ be32 (crc32 (t ++ p))

def pngSig : List ℕ := [137, 80, 78, 71, 13, 10, 26, 10]

def ihdrType : List ℕ := [73, 72, 68, 82]

def idatType : List ℕ := [73, 68, 65, 84]

def iendType : List ℕ := [73, 69, 78, 68]

def ihdrPayload (w h : ℕ) : List ℕ :=
  [0, 0, w >>> 8, w &&& 255, 0, 0, h >>> 8, h &&& 255, 8, 6, 0, 0, 0]

/-- The uncompressed scanline stream: per row a filter byte 0 then the raw
    row bytes. -/
def scanStream (w h : ℕ) (rgba : List ℕ) : List ℕ :=
  (List.range h).flatMap fun y => 0 :: rowData rgba w y

/-- Adler-32 (modulus 65521) of a byte stream, as `b * 65536 + a`. -/
def adler32 (l : List ℕ) : ℕ :=
  (l.foldl adlerByte (1, 0)).2 * 65536 + (l.foldl adlerByte (1, 0)).1

/-- One stored DEFLATE block per the spec: `[BFINAL|0000000, LEN_lo, LEN_hi,
    ~LEN_lo, ~LEN_hi]` with `LEN = w*4 + 1`, followed by the filter byte 0 and
    the row's raw bytes (`~x` of a byte value is `x ^^^ 255`). -/
def storedBlock (w h : ℕ) (rgba : List ℕ) (y : ℕ) : List ℕ :=
  [if y + 1 < h then 0 else 1, (w * 4 + 1) &&& 255, ((w * 4 + 1) >>> 8) &&& 255,
    ((w * 4 + 1) &&& 255) ^^^ 255, (((w * 4 + 1) >>> 8) &&& 255) ^^^ 255]
    ++ 0 :: rowData rgba w y

/-- The IDAT payload per the spec: zlib header, the stored blocks, and the
    big-endian Adler-32 of the scanline stream. -/
def idatPayload (w h : ℕ) (rgba : List ℕ) : List ℕ :=
  [120, 1] ++ ((List.range h).flatMap fun y => storedBlock w h rgba y)
    ++ be32 (adler32 (scanStream w h rgba))

/-- The standard reflected CRC-32 polynomial `0xEDB88320`. -/
def crcPoly : ℕ := 3988292384

/-- One bit step of the reflected CRC-32. -/
def crcBitStep (c : ℕ) : ℕ := if c % 2 = 1 then (c >>> 1) ^^^ crcPoly else c >>> 1

set_option maxRecDepth 4000 in
theorem xor255_eq_sub {x : ℕ} (hx : x < 256) : x ^^^ 255 = 255 - x := by
  revert hx
  revert x
  decide

theorem adlerByte_fst_lt (s : ℕ × ℕ) (u : ℕ) : (adlerByte s u).1 < 65521 := by
  unfold adlerByte
  exact Nat.mod_lt _ (by norm_num)

theorem adler_foldl_fst_lt : ∀ (l : List ℕ) (s : ℕ × ℕ), s.1 < 65521 →
    (l.foldl adlerByte s).1 < 65521 := by
  intro l
  induction l with
  | nil => intro s hs; exact hs
  | cons u t ih => intro s hs; exact ih _ (adlerByte_fst_lt s u)

theorem adler_foldl_snd_lt : ∀ (l : List ℕ) (s : ℕ × ℕ), s.2 < 65521 →
    (l.foldl adlerByte s).2 < 65521 := by
  intro l
  induction l with
  | nil => intro s hs; exact hs
  | cons u t ih =>
      intro s hs
      refine ih _ ?_
      unfold adlerByte
      exact Nat.mod_lt _ (by norm_num)

theorem adlerByte_zero (s : ℕ × ℕ) (hs : s.1 < 65521) :
    adlerByte s 0 = (s.1, (s.2 + s.1) % 65521) := by
  unfold adlerByte
  rw [Nat.add_zero, Nat.mod_eq_of_lt hs]

/-- The scanline loop emits, for each remaining row, the stored-block header,
    the filter byte and the row data, and threads the Adler state exactly as
    the `adlerByte` fold over the filter-byte-plus-row stream. -/
theorem rowsAux_eq (rgba : List ℕ) (w : ℕ) : ∀ (k y a b : ℕ), a < 65521 →
    rowsAux rgba w k y a b
      = ((List.range k).flatMap (fun j =>
            (if j + 1 < k then 0 else 1) :: ((w * 4 + 1) &&& 255) :: ((w * 4 + 1) >>> 8) ::
              (255 - ((w * 4 + 1) &&& 255)) :: (((w * 4 + 1) >>> 8) ^^^ 255) :: 0 ::
              rowData rgba w (y + j)),
          ((List.range k).flatMap fun j => 0 :: rowData rgba w (y + j)).foldl adlerByte (a, b)) := by
  intro k
  induction k with
  | zero => intro y a b ha; simp [rowsAux]
  | succ k ih =>
      intro y a b ha
      have hfun1 : (fun j : ℕ =>
            (if j + 1 + 1 < k + 1 then (0 : ℕ) else 1) :: ((w * 4 + 1) &&& 255) ::
              ((w * 4 + 1) >>> 8) :: (255 - ((w * 4 + 1) &&& 255)) ::
              (((w * 4 + 1) >>> 8) ^^^ 255) :: 0 :: rowData rgba w (y + (j + 1)))
          = (fun j : ℕ =>
            (if j + 1 < k then (0 : ℕ) else 1) :: ((w * 4 + 1) &&& 255) ::
              ((w * 4 + 1) >>> 8) :: (255 - ((w * 4 + 1) &&& 255)) ::
              (((w * 4 + 1) >>> 8) ^^^ 255) :: 0 :: rowData rgba w (y + 1 + j)) := by
        funext j
        have e1 : (if j + 1 + 1 < k + 1 then (0 : ℕ) else 1) = if j + 1 < k then 0 else 1 := by
          by_cases hc : j + 1 < k
          · rw [if_pos hc, if_pos (by omega)]
          · rw [if_neg hc, if_neg (by omega)]
        rw [e1, show y + (j + 1) = y + 1 + j from by omega]
      have hfun2 : (fun j : ℕ => 0 :: rowData rgba w (y + (j + 1)))
          = (fun j : ℕ => 0 :: rowData rgba w (y + 1 + j)) := by
        funext j
        rw [show y + (j + 1) = y + 1 + j from by omega]
      rw [List.range_succ_eq_map, List.flatMap_cons, List.flatMap_cons]
      simp only [rowsAux]
      have hfst : (rowData rgba w y |>.foldl adlerByte (a, (b + a) % 65521)).1 < 65521 := by
        rcases hrow : rowData rgba w y with _ | ⟨u, t⟩
        · simpa using ha
        · rw [List.foldl_cons]
          exact adler_foldl_fst_lt t _ (adlerByte_fst_lt _ u)
      rw [ih (y + 1) _ _ hfst]
      simp only [List.flatMap_map, Function.comp, Nat.succ_eq_add_one, List.cons_append,
        Nat.add_zero, Prod.mk.eta]
      rw [hfun1, hfun2]
      have hhead : (if 0 + 1 < k + 1 then (0 : ℕ) else 1) = if k = 0 then 1 else 0 := by
        by_cases hk : k = 0
        · rw [if_neg (by omega), if_pos hk]
        · rw [if_pos (by omega), if_neg hk]
      rw [hhead, List.foldl_cons, adlerByte_zero (a, b) ha, List.foldl_append]

theorem bytes0_eq (w h : ℕ) (rgba : List ℕ) :
    bytes0 w h rgba
      = initialBytes w h
        ++ ((List.range h).flatMap fun j =>
              (if j + 1 < h then 0 else 1) :: ((w * 4 + 1) &&& 255) :: ((w * 4 + 1) >>> 8) ::
                (255 - ((w * 4 + 1) &&& 255)) :: (((w * 4 + 1) >>> 8) ^^^ 255) :: 0 ::
                rowData rgba w j)
        ++ [(scanStream w h rgba |>.foldl adlerByte (1, 0)).2 >>> 8,
            (scanStream w h rgba |>.foldl adlerByte (1, 0)).2 &&& 255,
            (scanStream w h rgba |>.foldl adlerByte (1, 0)).1 >>> 8,
            (scanStream w h rgba |>.foldl adlerByte (1, 0)).1 &&& 255]
        ++ [0, 0, 0, 0] ++ [0, 0, 0, 0] ++ iendType ++ [174, 66, 96, 130] := by
  unfold bytes0 scanStream
  rw [rowsAux_eq rgba w h 0 1 0 (by norm_num)]
  simp only [Nat.zero_add, iendType]
  simp [List.append_assoc]

theorem rowData_length (rgba : List ℕ) (w y : ℕ) : (rowData rgba w y).length = w * 4 := by
  simp [rowData]

theorem storedBlock_length (w h : ℕ) (rgba : List ℕ) (y : ℕ) :
    (storedBlock w h rgba y).length = 6 + w * 4 := by
  simp [storedBlock, rowData_length]
  omega

theorem blocks_spec (w h : ℕ) (rgba : List ℕ) (hrow : w * 4 + 1 < 65536) :
    ((List.range h).flatMap fun j =>
        (if j + 1 < h then (0 : ℕ) else 1) :: ((w * 4 + 1) &&& 255) :: ((w * 4 + 1) >>> 8) ::
          (255 - ((w * 4 + 1) &&& 255)) :: (((w * 4 + 1) >>> 8) ^^^ 255) :: 0 ::
          rowData rgba w j)
      = (List.range h).flatMap fun y => storedBlock w h rgba y := by
  have hhi : (w * 4 + 1) >>> 8 < 256 := by
    rw [Nat.shiftRight_eq_div_pow]
    omega
  have hmask : ((w * 4 + 1) >>> 8) &&& 255 = (w * 4 + 1) >>> 8 := by
    rw [nat_and_255]
    omega
  have hlo : (w * 4 + 1) &&& 255 < 256 := by
    rw [nat_and_255]
    omega
  refine congrArg (List.flatMap (List.range h)) (funext fun j => ?_)
  unfold storedBlock
  rw [hmask, xor255_eq_sub hlo]
  rfl

theorem adler_components_lt (S : List ℕ) :
    (S.foldl adlerByte (1, 0)).1 < 65536 ∧ (S.foldl adlerByte (1, 0)).2 < 65536 := by
  rcases S with _ | ⟨u, t⟩
  · constructor <;> norm_num
  · rw [List.foldl_cons]
    constructor
    · exact lt_trans (adler_foldl_fst_lt t _ (adlerByte_fst_lt _ u)) (by norm_num)
    · refine lt_trans (adler_foldl_snd_lt t _ ?_) (by norm_num)
      unfold adlerByte
      exact Nat.mod_lt _ (by norm_num)

theorem adler_be32 (S : List ℕ) :
    [(S.foldl adlerByte (1, 0)).2 >>> 8, (S.foldl adlerByte (1, 0)).2 &&& 255,
     (S.foldl adlerByte (1, 0)).1 >>> 8, (S.foldl adlerByte (1, 0)).1 &&& 255]
      = be32 (adler32 S) := by
  obtain ⟨ha, hb⟩ := adler_components_lt S
  unfold adler32 be32
  set a := (S.foldl adlerByte (1, 0)).1
  set b := (S.foldl adlerByte (1, 0)).2
  have e0 : (b * 65536 + a) >>> 24 = b >>> 8 := by
    rw [Nat.shiftRight_eq_div_pow, Nat.shiftRight_eq_div_pow,
      show (2 : ℕ) ^ 24 = 16777216 from rfl, show (2 : ℕ) ^ 8 = 256 from rfl]
    omega
  have e1 : ((b * 65536 + a) >>> 16) &&& 255 = b &&& 255 := by
    rw [nat_and_255, nat_and_255, Nat.shiftRight_eq_div_pow,
      show (2 : ℕ) ^ 16 = 65536 from rfl]
    omega
  have e2 : ((b * 65536 + a) >>> 8) &&& 255 = a >>> 8 := by
    rw [nat_and_255, Nat.shiftRight_eq_div_pow, Nat.shiftRight_eq_div_pow,
      show (2 : ℕ) ^ 8 = 256 from rfl]
    omega
  have e3 : (b * 65536 + a) &&& 255 = a &&& 255 := by
    rw [nat_and_255, nat_and_255]
    omega
  rw [e0, e1, e2, e3]

theorem idatPayload_length (w h : ℕ) (rgba : List ℕ) :
    (idatPayload w h rgba).length = 6 + h * (5 + (w * 4 + 1)) := by
  unfold idatPayload
  rw [List.length_append, List.length_append,
    flatMap_length_const _ (6 + w * 4) _ fun y _ => storedBlock_length w h rgba y]
  simp [be32]
  ring

/-- The code-form stored blocks (the exact bytes the loop pushes). -/
def codeBlocks (w h : ℕ) (rgba : List ℕ) : List ℕ :=
  (List.range h).flatMap fun j =>
    (if j + 1 < h then 0 else 1) :: ((w * 4 + 1) &&& 255) :: ((w * 4 + 1) >>> 8) ::
      (255 - ((w * 4 + 1) &&& 255)) :: (((w * 4 + 1) >>> 8) ^^^ 255) :: 0 :: rowData rgba w j

/-- The code-form Adler bytes (`b >> 8, b & 255, a >> 8, a & 255`). -/
def codeAdler (w h : ℕ) (rgba : List ℕ) : List ℕ :=
  [(scanStream w h rgba |>.foldl adlerByte (1, 0)).2 >>> 8,
   (scanStream w h rgba |>.foldl adlerByte (1, 0)).2 &&& 255,
   (scanStream w h rgba |>.foldl adlerByte (1, 0)).1 >>> 8,
   (scanStream w h rgba |>.foldl adlerByte (1, 0)).1 &&& 255]

theorem bytes0_eq2 (w h : ℕ) (rgba : List ℕ) :
    bytes0 w h rgba
      = initialBytes w h ++ codeBlocks w h rgba ++ codeAdler w h rgba
        ++ [0, 0, 0, 0] ++ [0, 0, 0, 0] ++ iendType ++ [174, 66, 96, 130] := by
  rw [bytes0_eq]
  rfl

theorem codeBlocks_length (w h : ℕ) (rgba : List ℕ) :
    (codeBlocks w h rgba).length = (6 + w * 4) * h := by
  unfold codeBlocks
  have hlen := flatMap_length_const
    (fun j => (if j + 1 < h then 0 else 1) :: ((w * 4 + 1) &&& 255) :: ((w * 4 + 1) >>> 8) ::
      (255 - ((w * 4 + 1) &&& 255)) :: (((w * 4 + 1) >>> 8) ^^^ 255) :: 0 :: rowData rgba w j)
    (6 + w * 4) (List.range h) (fun j _ => by simp [rowData_length]; omega)
  simpa using hlen

theorem patch4_append (l1 l2 : List ℕ) (pos c : ℕ) (hpos : l1.length = pos) :
    patch4 (l1 ++ ([0, 0, 0, 0] ++ l2)) pos c = l1 ++ (be32 c ++ l2) := by
  unfold patch4
  rw [List.take_left' hpos,
    show l1 ++ ([0, 0, 0, 0] ++ l2) = (l1 ++ [0, 0, 0, 0]) ++ l2 from
      (List.append_assoc l1 [0, 0, 0, 0] l2).symm,
    List.drop_left' (by simp [hpos])]
  simp [be32, List.append_assoc]

theorem pngBytes_structure (w h : ℕ) (rgba : List ℕ) :
    pngBytes w h rgba
      = ((((pngSig ++ [0, 0, 0, 13] ++ ihdrType ++ ihdrPayload w h)
          ++ be32 (crc32 (ihdrType ++ ihdrPayload w h))
          ++ be32 (6 + h * (5 + (w * 4 + 1))) ++ idatType ++ [120, 1]
          ++ codeBlocks w h rgba ++ codeAdler w h rgba)
          ++ (be32 (crc32 (idatType ++ ([120, 1] ++ (codeBlocks w h rgba ++ codeAdler w h rgba))))
          ++ ([0, 0, 0, 0] ++ (iendType ++ [174, 66, 96, 130]))))) := by
  have hinit : initialBytes w h
      = (pngSig ++ [0, 0, 0, 13] ++ ihdrType ++ ihdrPayload w h)
        ++ ([0, 0, 0, 0] ++ (be32 (6 + h * (5 + (w * 4 + 1))) ++ idatType ++ [120, 1])) := by
    simp [initialBytes, pngSig, ihdrType, ihdrPayload, idatType, be32]
  have hP29len : (pngSig ++ [0, 0, 0, 13] ++ ihdrType ++ ihdrPayload w h).length = 29 := by
    simp [pngSig, ihdrType, ihdrPayload]
  have hc1 : crc32 (((bytes0 w h rgba).drop 12).take 17)
      = crc32 (ihdrType ++ ihdrPayload w h) := by
    have hb0a : bytes0 w h rgba
        = (pngSig ++ [0, 0, 0, 13])
          ++ ((ihdrType ++ ihdrPayload w h)
            ++ ([0, 0, 0, 0] ++ (be32 (6 + h * (5 + (w * 4 + 1))) ++ idatType ++ [120, 1]
              ++ codeBlocks w h rgba ++ codeAdler w h rgba
              ++ [0, 0, 0, 0] ++ [0, 0, 0, 0] ++ iendType ++ [174, 66, 96, 130]))) := by
      rw [bytes0_eq2, hinit]
      simp [List.append_assoc]
    rw [hb0a, List.drop_left' (by simp [pngSig]),
      List.take_left' (by simp [ihdrType, ihdrPayload])]
  have hb0b : bytes0 w h rgba
      = (pngSig ++ [0, 0, 0, 13] ++ ihdrType ++ ihdrPayload w h)
        ++ ([0, 0, 0, 0]
          ++ (be32 (6 + h * (5 + (w * 4 + 1))) ++ idatType ++ [120, 1]
            ++ codeBlocks w h rgba ++ codeAdler w h rgba
            ++ [0, 0, 0, 0] ++ [0, 0, 0, 0] ++ iendType ++ [174, 66, 96, 130])) := by
    rw [bytes0_eq2, hinit]
    simp [List.append_assoc]
  simp only [pngBytes]
  rw [hc1, hb0b, patch4_append _ _ 29 _ hP29len]
  have hmul : (6 + w * 4) * h = h * (5 + (w * 4 + 1)) := by ring
  have hb1a : (pngSig ++ [0, 0, 0, 13] ++ ihdrType ++ ihdrPayload w h)
        ++ (be32 (crc32 (ihdrType ++ ihdrPayload w h))
          ++ (be32 (6 + h * (5 + (w * 4 + 1))) ++ idatType ++ [120, 1]
            ++ codeBlocks w h rgba ++ codeAdler w h rgba
            ++ [0, 0, 0, 0] ++ [0, 0, 0, 0] ++ iendType ++ [174, 66, 96, 130]))
      = (pngSig ++ [0, 0, 0, 13] ++ ihdrType ++ ihdrPayload w h
          ++ be32 (crc32 (ihdrType ++ ihdrPayload w h))
          ++ be32 (6 + h * (5 + (w * 4 + 1))))
        ++ ((idatType ++ ([120, 1] ++ (codeBlocks w h rgba ++ codeAdler w h rgba)))
          ++ ([0, 0, 0, 0] ++ ([0, 0, 0, 0] ++ (iendType ++ [174, 66, 96, 130])))) := by
    simp [List.append_assoc]
  have hc2 : crc32 ((((pngSig ++ [0, 0, 0, 13] ++ ihdrType ++ ihdrPayload w h
          ++ be32 (crc32 (ihdrType ++ ihdrPayload w h))
          ++ be32 (6 + h * (5 + (w * 4 + 1))))
        ++ ((idatType ++ ([120, 1] ++ (codeBlocks w h rgba ++ codeAdler w h rgba)))
          ++ ([0, 0, 0, 0] ++ ([0, 0, 0, 0] ++ (iendType ++ [174, 66, 96, 130]))))).drop 37).take
        (4 + (6 + h * (5 + (w * 4 + 1)))))
      = crc32 (idatType ++ ([120, 1] ++ (codeBlocks w h rgba ++ codeAdler w h rgba))) := by
    have hlen2 : (idatType ++ ([120, 1] ++ (codeBlocks w h rgba ++ codeAdler w h rgba))).length
        = 4 + (6 + h * (5 + (w * 4 + 1))) := by
      simp [idatType, codeAdler, codeBlocks_length]
      ring
    rw [List.drop_left' (by simp [pngSig, ihdrType, ihdrPayload, be32]),
      List.take_left' hlen2]
  rw [hb1a, hc2]
  have hb1b : (pngSig ++ [0, 0, 0, 13] ++ ihdrType ++ ihdrPayload w h
          ++ be32 (crc32 (ihdrType ++ ihdrPayload w h))
          ++ be32 (6 + h * (5 + (w * 4 + 1))))
        ++ ((idatType ++ ([120, 1] ++ (codeBlocks w h rgba ++ codeAdler w h rgba)))
          ++ ([0, 0, 0, 0] ++ ([0, 0, 0, 0] ++ (iendType ++ [174, 66, 96, 130]))))
      = (pngSig ++ [0, 0, 0, 13] ++ ihdrType ++ ihdrPayload w h
          ++ be32 (crc32 (ihdrType ++ ihdrPayload w h))
          ++ be32 (6 + h * (5 + (w * 4 + 1))) ++ idatType ++ [120, 1]
          ++ codeBlocks w h rgba ++ codeAdler w h rgba)
        ++ ([0, 0, 0, 0] ++ ([0, 0, 0, 0] ++ (iendType ++ [174, 66, 96, 130]))) := by
    simp [List.append_assoc]
  have hlen3 : (pngSig ++ [0, 0, 0, 13] ++ ihdrType ++ ihdrPayload w h
        ++ be32 (crc32 (ihdrType ++ ihdrPayload w h))
        ++ be32 (6 + h * (5 + (w * 4 + 1))) ++ idatType ++ [120, 1]
        ++ codeBlocks w h rgba ++ codeAdler w h rgba).length
      = 41 + (6 + h * (5 + (w * 4 + 1))) := by
    simp [pngSig, ihdrType, ihdrPayload, be32, idatType, codeAdler, codeBlocks_length]
    ring
  rw [hb1b, patch4_append _ _ (41 + (6 + h * (5 + (w * 4 + 1)))) _ hlen3]

theorem getD_skip (l1 l2 : List ℕ) (n k : ℕ) (h : l1.length = n) :
    (l1 ++ l2).getD (n + k) 0 = l2.getD k 0 := by
  rw [List.getD_append_right l1 l2 0 (n + k) (by omega)]
  congr 1
  omega

/-- C7 counterexample: at `w = 16384, h = 1` (with an rgba buffer of the
    required length `w*h*4 = 65536`), the row length `w*4+1 = 65537` overflows
    the 16-bit LEN field of the stored-block header: the code emits the
    unmasked byte `65537 >>> 8 = 256` at offset 45 of the stream, while the
    claimed header byte `LEN_hi = (65537 >>> 8) &&& 255` is `0`, so the
    emitted stream differs from the claimed chunk layout. -/
theorem c7_counterexample :
    (List.replicate 65536 (0 : ℕ)).length = 16384 * 1 * 4 ∧
    (pngBytes 16384 1 (List.replicate 65536 0)).getD 45 0 = 256 ∧
    (pngSig ++ pngChunk ihdrType (ihdrPayload 16384 1)
        ++ pngChunk idatType (idatPayload 16384 1 (List.replicate 65536 0))
        ++ pngChunk iendType []).getD 45 0 = 0 ∧
    pngBytes 16384 1 (List.replicate 65536 0)
      ≠ pngSig ++ pngChunk ihdrType (ihdrPayload 16384 1)
        ++ pngChunk idatType (idatPayload 16384 1 (List.replicate 65536 0))
        ++ pngChunk iendType [] := by
  have hlhs : ∀ R : List ℕ, (pngBytes 16384 1 R).getD 45 0 = 256 := by
    intro R
    have hform : pngBytes 16384 1 R
        = (pngSig ++ [0, 0, 0, 13] ++ ihdrType ++ ihdrPayload 16384 1
            ++ be32 (crc32 (ihdrType ++ ihdrPayload 16384 1))
            ++ be32 (6 + 1 * (5 + (16384 * 4 + 1))) ++ idatType ++ [120, 1])
          ++ (codeBlocks 16384 1 R
            ++ (codeAdler 16384 1 R
              ++ (be32 (crc32 (idatType ++ ([120, 1]
                  ++ (codeBlocks 16384 1 R ++ codeAdler 16384 1 R))))
                ++ ([0, 0, 0, 0] ++ (iendType ++ [174, 66, 96, 130]))))) := by
      rw [pngBytes_structure]
      simp [List.append_assoc]
    have hplen : (pngSig ++ [0, 0, 0, 13] ++ ihdrType ++ ihdrPayload 16384 1
        ++ be32 (crc32 (ihdrType ++ ihdrPayload 16384 1))
        ++ be32 (6 + 1 * (5 + (16384 * 4 + 1))) ++ idatType ++ [120, 1]).length = 43 := by
      simp [pngSig, ihdrType, ihdrPayload, be32, idatType]
    rw [hform, show (45 : ℕ) = 43 + 2 from rfl, getD_skip _ _ 43 2 hplen]
    have hcb1 : codeBlocks 16384 1 R
        = 1 :: ((16384 * 4 + 1) &&& 255) :: ((16384 * 4 + 1) >>> 8)
          :: (255 - ((16384 * 4 + 1) &&& 255)) :: (((16384 * 4 + 1) >>> 8) ^^^ 255) :: 0
          :: rowData R 16384 0 := by
      unfold codeBlocks
      rw [show List.range 1 = [0] from by decide]
      simp
    rw [hcb1]
    simp only [List.cons_append, List.getD_cons_succ, List.getD_cons_zero]
    decide
  have hrhs : ∀ R : List ℕ, (pngSig ++ pngChunk ihdrType (ihdrPayload 16384 1)
      ++ pngChunk idatType (idatPayload 16384 1 R)
      ++ pngChunk iendType []).getD 45 0 = 0 := by
    intro R
    have hform2 : pngSig ++ pngChunk ihdrType (ihdrPayload 16384 1)
        ++ pngChunk idatType (idatPayload 16384 1 R)
        ++ pngChunk iendType []
        = (pngSig ++ be32 (ihdrPayload 16384 1).length ++ ihdrType ++ ihdrPayload 16384 1
            ++ be32 (crc32 (ihdrType ++ ihdrPayload 16384 1))
            ++ be32 (idatPayload 16384 1 R).length
            ++ idatType ++ [120, 1])
          ++ (((List.range 1).flatMap fun y => storedBlock 16384 1 R y)
            ++ (be32 (adler32 (scanStream 16384 1 R))
              ++ (be32 (crc32 (idatType ++ idatPayload 16384 1 R))
                ++ pngChunk iendType []))) := by
      simp [pngChunk, idatPayload, List.append_assoc]
    have hplen2 : (pngSig ++ be32 (ihdrPayload 16384 1).length ++ ihdrType
        ++ ihdrPayload 16384 1 ++ be32 (crc32 (ihdrType ++ ihdrPayload 16384 1))
        ++ be32 (idatPayload 16384 1 R).length
        ++ idatType ++ [120, 1]).length = 43 := by
      simp [pngSig, ihdrType, ihdrPayload, be32, idatType]
    rw [hform2, show (45 : ℕ) = 43 + 2 from rfl, getD_skip _ _ 43 2 hplen2]
    have hsb : ((List.range 1).flatMap fun y => storedBlock 16384 1 R y)
        = storedBlock 16384 1 R 0 := by
      rw [show List.range 1 = [0] from by decide]
      simp
    have hsb0 : storedBlock 16384 1 R 0
        = 1 :: ((16384 * 4 + 1) &&& 255) :: (((16384 * 4 + 1) >>> 8) &&& 255)
          :: (((16384 * 4 + 1) &&& 255) ^^^ 255) :: ((((16384 * 4 + 1) >>> 8) &&& 255) ^^^ 255)
          :: 0 :: rowData R 16384 0 := by
      unfold storedBlock
      simp
    rw [hsb, hsb0]
    simp only [List.cons_append, List.getD_cons_succ, List.getD_cons_zero]
    decide
  refine ⟨by rw [List.length_replicate], hlhs _, hrhs _, fun heq => ?_⟩
  have h1 := hlhs (List.replicate 65536 0)
  rw [heq, hrhs _] at h1
  omega

/-- C7 (amended): for every `w` with `1 ≤ w ≤ 16383`, `h ≥ 1` and any rgba
    buffer, provided the full stream size `63 + h*(w*4+6)` stays within the
    JavaScript array-length limit `2^32 - 1`, `rgbaToDataURL`'s byte stream is
    the PNG signature followed by an IHDR chunk, an IDAT chunk and an IEND
    chunk, where the IDAT payload is the 2-byte zlib header `[0x78, 0x01]`,
    then per scanline the 5-byte stored block header
    `[BFINAL, LEN_lo, LEN_hi, ~LEN_lo, ~LEN_hi]` (`LEN = w*4+1`, `BFINAL = 1`
    only on the last row), the filter byte 0 and the row's `w*4` raw bytes,
    then the 4-byte big-endian Adler-32 (modulus 65521) of the
    filter-byte-plus-row stream; each chunk's trailing 4-byte big-endian
    CRC-32 covers exactly the chunk's type tag plus payload and not its length
    field, and the CRC table is the standard reflected-polynomial
    (`0xEDB88320`) nibble table. The bound `w ≤ 16383` keeps `LEN` inside the
    16-bit field; for `w ≥ 16384` the code emits an out-of-range unmasked
    byte (see the counterexample). The size bound keeps the source's `push`
    calls inside the array-length limit (no `RangeError`) and gives
    `idat = 6 + h*(w*4+6) < 2^32`, so the `ToUint32` taken by `idat >>> 24`
    and friends is the identity and the model's unbounded shifts agree with
    the source. -/
theorem c7_png_layout (w h : ℕ) (rgba : List ℕ)
    (hw : 1 ≤ w) (hw2 : w ≤ 16383) (hh : 1 ≤ h)
    (hsize : 63 + h * (w * 4 + 6) ≤ 4294967295) :
    pngBytes w h rgba
      = pngSig ++ pngChunk ihdrType (ihdrPayload w h)
        ++ pngChunk idatType (idatPayload w h rgba)
        ++ pngChunk iendType []
    ∧ ∀ k, k < 16 → crcTable.getD k 0 = crcBitStep^[4] k := by
  refine ⟨?_, by decide⟩
  have hrow : w * 4 + 1 < 65536 := by omega
  have hcb : codeBlocks w h rgba
      = (List.range h).flatMap fun y => storedBlock w h rgba y :=
    blocks_spec w h rgba hrow
  have hca : codeAdler w h rgba = be32 (adler32 (scanStream w h rgba)) :=
    adler_be32 (scanStream w h rgba)
  have h13 : be32 (ihdrPayload w h).length = [0, 0, 0, 13] := by
    rw [show (ihdrPayload w h).length = 13 from by simp [ihdrPayload]]
    decide
  have e1 : pngChunk ihdrType (ihdrPayload w h)
      = [0, 0, 0, 13] ++ ihdrType ++ ihdrPayload w h
        ++ be32 (crc32 (ihdrType ++ ihdrPayload w h)) := by
    unfold pngChunk
    rw [h13]
  have e2 : pngChunk idatType (idatPayload w h rgba)
      = be32 (6 + h * (5 + (w * 4 + 1))) ++ idatType ++ idatPayload w h rgba
        ++ be32 (crc32 (idatType ++ idatPayload w h rgba)) := by
    unfold pngChunk
    rw [idatPayload_length]
  have e3 : pngChunk iendType ([] : List ℕ)
      = [0, 0, 0, 0] ++ iendType ++ [174, 66, 96, 130] := by
    decide
  rw [pngBytes_structure, hcb, hca, e1, e2, e3]
  unfold idatPayload
  simp [List.append_assoc]

/-- Witness for C7 at `w = 1, h = 1` and a single opaque pixel. -/
theorem c7_png_layout_witness :
    ((1 : ℕ) ≤ 1 ∧ (1 : ℕ) ≤ 16383 ∧ (1 : ℕ) ≤ 1
      ∧ 63 + 1 * (1 * 4 + 6) ≤ 4294967295) ∧
    (pngBytes 1 1 [10, 20, 30, 255]
        = pngSig ++ pngChunk ihdrType (ihdrPayload 1 1)
          ++ pngChunk idatType (idatPayload 1 1 [10, 20, 30, 255])
          ++ pngChunk iendType []
      ∧ ∀ k, k < 16 → crcTable.getD k 0 = crcBitStep^[4] k) :=
  ⟨⟨by decide, by decide, by decide, by decide⟩,
    c7_png_layout 1 1 [10, 20, 30, 255] (by decide) (by decide) (by decide) (by decide)⟩

end ThumbHash
